import Mathlib

set_option autoImplicit false

namespace Leva

/-- JavaScript-like runtime values, as far as the embedded functions inspect them:
primitives, arrays and plain objects (objects are ordered association lists of
string keys, mirroring JS insertion order). -/
inductive JsVal where
  | undef
  | null
  | bool (b : Bool)
  | num (n : Int)
  | str (s : String)
  | arr (elems : List JsVal)
  | obj (fields : List (String × JsVal))

/-- A JS object with string keys, in insertion order. -/
abbrev Obj := List (String × JsVal)

/-- Property read `o[k]`: value of the first (unique, in real JS objects) binding. -/
def aGet {α : Type} (o : List (String × α)) (k : String) : Option α :=
  (o.find? (fun p => p.1 == k)).map (fun p => p.2)

/-- The JS `k in o` test. -/
def aHas {α : Type} (o : List (String × α)) (k : String) : Bool :=
  o.any (fun p => p.1 == k)

/-- Property write `o[k] = v`: JS objects keep the original insertion position
when an existing key is overwritten and append fresh keys at the end.  (JS
object keys are unique, so overwriting the first binding is exact.) -/
def aSet {α : Type} (o : List (String × α)) (k : String) (v : α) : List (String × α) :=
  match o with
  | [] => [(k, v)]
  | p :: rest => if p.1 == k then (k, v) :: rest else p :: aSet rest k v

/-- Value of the last binding of `k`, used to describe the effect of spreads. -/
def aGetLast {α : Type} (o : List (String × α)) (k : String) : Option α :=
  (o.reverse.find? (fun p => p.1 == k)).map (fun p => p.2)

/-- `Object.assign(base, extra)` / object spread: write every binding of `extra`
into `base` in order. -/
def aSpread {α : Type} (base extra : List (String × α)) : List (String × α) :=
  extra.foldl (fun acc p => aSet acc p.1 p.2) base

/-- The fields the `onUpdate` handler of `useInputSetters` destructures from a
thrown error: `const { type, previousValue } = error`.  Either field may be
absent (`undefined`) on errors that are not Leva sanitization errors. -/
structure ThrownError (V : Type) where
  type : Option String
  previousValue : Option V

/-- Embeds `useInputSetters.onUpdate` (hooks/useInputSetters.ts): calls
`setValue(updatedValue)`; on a thrown error it destructures `type` and
`previousValue`, rethrows unless `type === LEVA_ERROR`, and otherwise reverts
the display value via `setFormat(previousValue)`.  `setFormat` closes over the
input type and current settings, exactly as the `useCallback` in the source
closes over `type` and `settingsRef.current`.  The result is the display value
after the call (unchanged on success, reverted on a caught sanitization
failure) or the uncaught rethrown error. -/
def onUpdate {V D : Type} (setFormat : Option V → D)
    (setValue : V → Except (ThrownError V) Unit)
    (displayValue : D) (updatedValue : V) : Except (ThrownError V) D :=
  match setValue updatedValue with
  | .ok _ => .ok displayValue
  | .error error =>
      if error.type ≠ some "LEVA_ERROR" then .error error
      else .ok (setFormat error.previousValue)

/-- A `setValue` that rejects values above 10 with a typed sanitization
failure carrying the last-known-good value 5 (concrete instance for
evaluation). -/
def sanitizeSetValue (n : Int) : Except (ThrownError Int) Unit :=
  if 10 < n then .error { type := some "LEVA_ERROR", previousValue := some 5 }
  else .ok ()

/-- A `setValue` that throws an error whose `type` is not the sanitization
tag (concrete instance for evaluation). -/
def throwingSetValue (n : Int) : Except (ThrownError Int) Unit :=
  if 10 < n then .error { type := some "TypeError", previousValue := none }
  else .ok ()

/-- Embeds `isHookSettings` (headless/useControls.utils.ts): accepts any
non-null, non-array object (`typeof value === "object"` is only true for
plain objects, arrays and `null` among the modelled values). -/
def isHookSettings (value : JsVal) : Bool :=
  match value with
  | .obj _ => true
  | .arr _ => false
  | .null => false
  | _ => false

/-- The fields of an optional `HookSettings` object (spreading `undefined`
contributes nothing). -/
def hookSettingsFields (hookSettings : JsVal) : Obj :=
  match hookSettings with
  | .obj fields => fields
  | _ => []

/-- Embeds `createHeadlessSettings` (headless/useControls.utils.ts):
`\x7b ...hookSettings, headless: true \x7d`. -/
def createHeadlessSettings (hookSettings : JsVal) : JsVal :=
  .obj (aSet (hookSettingsFields hookSettings) "headless" (.bool true))

/-- The named parameters of `reconstructArgsWithHeadless`; optional arguments
that the caller did not pass are `JsVal.undef`, matching the TS optional
parameters. -/
structure ReconstructParams where
  folderName : Option String
  schemaOrFolderName : JsVal
  settingsOrDepsOrSchema : JsVal
  depsOrSettingsOrFolderSettings : JsVal
  depsOrSettings : JsVal
  depsOrUndefined : JsVal
  hookSettings : JsVal

/-- JS truthiness of the `folderName` string (`if (folderName)`): an absent
or empty string is falsy. -/
def folderTruthy (p : ReconstructParams) : Bool :=
  match p.folderName with
  | some s => !(s == "")
  | none => false

/-- Embeds `reconstructArgsWithHeadless` (headless/useControls.utils.ts):
rebuilds the positional argument list for the base `useControls`, injecting
`headless: true` into the hook-settings slot in both the folder-named and the
schema-only form. -/
def reconstructArgsWithHeadless (p : ReconstructParams) : List JsVal :=
  let headlessSettings := createHeadlessSettings p.hookSettings
  if folderTruthy p then
    if isHookSettings p.depsOrSettings then
      [p.schemaOrFolderName, p.settingsOrDepsOrSchema, p.depsOrSettingsOrFolderSettings,
        headlessSettings, p.depsOrUndefined]
    else
      [p.schemaOrFolderName, p.settingsOrDepsOrSchema, p.depsOrSettingsOrFolderSettings,
        headlessSettings, p.depsOrSettings]
  else
    if isHookSettings p.settingsOrDepsOrSchema then
      [p.schemaOrFolderName, headlessSettings, p.depsOrSettingsOrFolderSettings]
    else
      [p.schemaOrFolderName, headlessSettings, p.settingsOrDepsOrSchema]

/-- Concrete argument record for evaluation: the folder-named form
`useControls(folderName, schema, folderSettings, hookSettings, deps)` with an
explicit `headless: false` in the hook settings. -/
def headlessSampleParams : ReconstructParams where
  folderName := some "myFolder"
  schemaOrFolderName := .str "myFolder"
  settingsOrDepsOrSchema := .obj [("x", .num 1)]
  depsOrSettingsOrFolderSettings := .obj [("collapsed", .bool true)]
  depsOrSettings := .obj [("headless", .bool false), ("store", .str "store0")]
  depsOrUndefined := .arr [.num 7]
  hookSettings := .obj [("headless", .bool false), ("store", .str "store0")]

/-- The store data table: full dot path to stored entry record. -/
abbrev Data := List (String × Obj)

/-- One step of the reducer inside the `useValues` subscription
(hooks/useValue.ts): `if (data[path] && a value key is in data[path])
return Object.assign(acc, one binding path to that value); return acc`. -/
def useValuesStep (data : Data) (acc : Obj) (path : String) : Obj :=
  match aGet data path with
  | some entry =>
      if aHas entry "value" then aSet acc path ((aGet entry "value").getD .undef)
      else acc
  | none => acc

/-- Embeds the selector of `useValues` (hooks/useValue.ts): over the requested
paths, reduce with `useValuesStep` starting from the empty object. -/
def useValuesSelector (data : Data) (paths : List String) : Obj :=
  paths.foldl (useValuesStep data) []

/-- The value contributed for a path, if any: an entry must exist and carry a
`value` field. -/
def dataValueAt (data : Data) (path : String) : Option JsVal :=
  match aGet data path with
  | some entry =>
      if aHas entry "value" then some ((aGet entry "value").getD .undef) else none
  | none => none

/-- Modelled from the spec: the snapshot accessor `get(shortKeyOrPath)` of the
schema-registration entry point "returns current value or throws unknown path
if the path was never registered by any caller" (spec, external interfaces);
the store module implementing the registration-scoped accessor is not under
src, unlike `useValues`, which silently omits such paths. -/
def specGet (data : Data) (path : String) : Except String JsVal :=
  match aGet data path with
  | some entry => .ok ((aGet entry "value").getD .undef)
  | none => .error "unknown path"

/-- Concrete store data for evaluation: a number input carrying a value, and
a button-like special entry without a `value` field. -/
def useValuesSampleData : Data :=
  [("folderA.n", [("type", .str "NUMBER"), ("value", .num 42)]),
   ("buttonB", [("type", .str "BUTTON")])]

/-- Diagnostics emitted through the `warn` channel by `getDataFromSchema`
(`LevaErrors.EMPTY_KEY`, `DUPLICATE_KEYS`, `UNKNOWN_INPUT`), with the
arguments the source passes to `warn`. -/
inductive Warning where
  | emptyKey
  | duplicateKeys (key newPath oldPath : String)
  | unknownInput (path : String)

/-- A raw schema entry as `getDataFromSchema` discriminates it: either a
special folder node (`rawInput.type === SpecialInputs.FOLDER`) carrying a
sub-schema and folder settings, or any other raw input, which is handed to
`normalizeInput`. -/
inductive RawInput where
  | folder (schema : List (String × RawInput)) (settings : JsVal)
  | plain (raw : JsVal)

/-- The result of a successful `normalizeInput` call: the inferred type tag,
the user options object (label, render, callback settings, ...) and the
normalized input record (value, settings). -/
structure NormalizedInput where
  type : String
  options : Obj
  input : Obj

/-- The type of the plugin-driven `normalizeInput` from utils, which is not
under src: it receives the raw input, short key, full path and the data
accumulated so far, and yields `none` when no registered type matcher claims
the value. The walk theorems hold for every such function. -/
abbrev NormalizeFn := JsVal → String → String → Data → Option NormalizedInput

/-- One record of the short-key mapping: `mappedPaths[key]` holds the full
path together with the four destructured callback settings. -/
structure MappedPath where
  path : String
  onChange : Option JsVal
  transient : Option JsVal
  onEditStart : Option JsVal
  onEditEnd : Option JsVal

/-- The two objects `getDataFromSchema` mutates in place across recursive
calls: `mappedPaths` and `folders`. -/
structure WalkState where
  mappedPaths : List (String × MappedPath)
  folders : List (String × JsVal)

/-- Modelled from the spec: the `join` path utility (utils source not under
src) builds the dot-segmented paths of the data model, joining the non-empty
segments with a dot. -/
def join (rootPath key : String) : String :=
  if rootPath = "" then key
  else if key = "" then rootPath
  else rootPath ++ "." ++ key

/-- The four side-effect-only settings destructured away from the options
before the entry is stored. -/
def callbackKeys : List String := ["onChange", "transient", "onEditStart", "onEditEnd"]

/-- The stored data entry: the literal starts from the type tag, spreads
`_options` (the options without the four callback settings), spreads the
normalized input record, and ends with `fromPanel: true`. -/
def entryFromNormalized (n : NormalizedInput) : Obj :=
  aSet (aSpread (aSpread [("type", JsVal.str n.type)]
      (n.options.filter (fun p => !callbackKeys.contains p.1))) n.input)
    "fromPanel" (.bool true)

/-- The short-key record built from the full path and the destructured
options. -/
def mappedFromOptions (newPath : String) (options : Obj) : MappedPath where
  path := newPath
  onChange := aGet options "onChange"
  transient := aGet options "transient"
  onEditStart := aGet options "onEditStart"
  onEditEnd := aGet options "onEditEnd"

/-- The source line "Sets folder preferences if it was not set before":
record the folder settings at the resolved path only when that path has no
recorded settings yet. -/
def folderUpdate (st1 : WalkState) (newPath : String) (fsettings : JsVal) : WalkState :=
  if aHas st1.folders newPath then st1
  else { st1 with folders := st1.folders ++ [(newPath, fsettings)] }

/-- The record added to the short-key mapping for a normalized input. -/
def withMapped (st : WalkState) (key : String) (mp : MappedPath) : WalkState :=
  { st with mappedPaths := st.mappedPaths ++ [(key, mp)] }

/-- Embeds `getDataFromSchema` (utils/data.ts): walks the schema entries in
order. An empty key only warns; a folder node is walked recursively under the
extended path and its folder settings are recorded only when the resolved
folder path has none yet; a short key already present in `mappedPaths` only
warns with the first-mapped path; otherwise `normalizeInput` either yields
the entry stored at the full path, with the callback settings split off into
`mappedPaths`, or an unknown-input warning. The in-place mutation of `data`,
`mappedPaths` and `folders` is threaded as state, and the `warn` channel is
returned as the ordered list of emitted diagnostics. -/
def getDataFromSchema (norm : NormalizeFn) :
    List (String × RawInput) → String → Data → WalkState →
      Data × WalkState × List Warning
  | [], _, data, st => (data, st, [])
  | (key, rawInput) :: rest, rootPath, data, st =>
    if key = "" then
      let r := getDataFromSchema norm rest rootPath data st
      (r.1, r.2.1, .emptyKey :: r.2.2)
    else
      let newPath := join rootPath key
      match rawInput with
      | .folder schema fsettings =>
          let rf := getDataFromSchema norm schema newPath [] st
          let data1 := aSpread data rf.1
          let st2 := folderUpdate rf.2.1 newPath fsettings
          let r := getDataFromSchema norm rest rootPath data1 st2
          (r.1, r.2.1, rf.2.2 ++ r.2.2)
      | .plain raw =>
          if aHas st.mappedPaths key then
            let oldPath := ((aGet st.mappedPaths key).map (fun mp => mp.path)).getD ""
            let r := getDataFromSchema norm rest rootPath data st
            (r.1, r.2.1, .duplicateKeys key newPath oldPath :: r.2.2)
          else
            match norm raw key newPath data with
            | some n =>
                getDataFromSchema norm rest rootPath
                  (aSet data newPath (entryFromNormalized n))
                  (withMapped st key (mappedFromOptions newPath n.options))
            | none =>
                let r := getDataFromSchema norm rest rootPath data st
                (r.1, r.2.1, .unknownInput newPath :: r.2.2)

/-- Concrete `normalizeInput` for evaluation: claims number-valued raw
inputs, with a label option, two callback settings, and a normalized value
record. -/
def sampleNorm : NormalizeFn := fun raw key _ _ =>
  match raw with
  | .num n =>
      some { type := "NUMBER"
             options := [("label", .str key), ("onChange", .str "cb"),
               ("transient", .bool true)]
             input := [("value", .num n), ("settings", .obj [])] }
  | _ => none

/-- The first-mapped record for the short key `x`, at path `folder1.x`
(concrete instance for evaluation). -/
def sampleDupMapped : MappedPath where
  path := "folder1.x"
  onChange := none
  transient := none
  onEditStart := none
  onEditEnd := none

/-- Concrete walk state in which the short key `x` is already mapped. -/
def sampleDupState : WalkState where
  mappedPaths := [("x", sampleDupMapped)]
  folders := []

/-- The normalized input `sampleNorm` yields for a schema entry `speed: 3`. -/
def sampleSpeedNorm : NormalizedInput where
  type := "NUMBER"
  options := [("label", .str "speed"), ("onChange", .str "cb"),
    ("transient", .bool true)]
  input := [("value", .num 3), ("settings", .obj [])]

/-- The fields `getValuesForPaths` destructures from a stored entry: the
short key, the committed value and the disabled flag. -/
structure InputEntry where
  key : String
  value : JsVal
  disabled : Bool

/-- A data table whose entries expose key, value and disabled flag. -/
abbrev ValueData := List (String × InputEntry)

/-- One step of the `pick` reduction. -/
def pickStep (data : ValueData) (acc : ValueData) (path : String) : ValueData :=
  match aGet data path with
  | some e => aSet acc path e
  | none => acc

/-- Modelled from the spec: `pick(data, paths)` (the utils module defining it
is not under src) selects the subset of the data table at the given paths,
keyed by path. -/
def pick (data : ValueData) (paths : List String) : ValueData :=
  paths.foldl (pickStep data) []

/-- Embeds `getValuesForPaths` (utils/data.ts): reduces the picked entries to
an object keyed by each entry's short key, reporting `undefined` in place of
the value for disabled entries. -/
def getValuesForPaths (data : ValueData) (paths : List String) : Obj :=
  (pick data paths).foldl
    (fun acc p => aSet acc p.2.key (if p.2.disabled then .undef else p.2.value)) []

/-- Modelled from the spec: `disableInputAtPath` (the store module is not
under src) "toggles disabled; disabled entries report their value as
absent/undefined to readers while keeping the underlying stored value
intact" — only the disabled flag of the entry at the path changes. -/
def setDisabledAt (data : ValueData) (path : String) (flag : Bool) : ValueData :=
  data.map (fun q => if q.1 == path then (q.1, { q.2 with disabled := flag }) else q)

/-- Concrete data table for evaluation: a disabled entry and an enabled one. -/
def disabledSampleData : ValueData :=
  [("folderA.n", { key := "n", value := .num 7, disabled := true }),
   ("folderA.m", { key := "m", value := .num 8, disabled := false })]

namespace RefCount

/-- Modelled from the spec: the per-path reference count table of the store
(the store module is not under src). A registration touching a path
increments its count, inserting the entry at count one when absent. -/
def bump (counts : List (String × Nat)) (p : String) : List (String × Nat) :=
  match aGet counts p with
  | some n => aSet counts p (n + 1)
  | none => counts ++ [(p, 1)]

/-- Remove the binding of `k` (unique in a well-formed table). -/
def aRemove {α : Type} (o : List (String × α)) (k : String) : List (String × α) :=
  match o with
  | [] => []
  | q :: rest => if q.1 == k then rest else q :: aRemove rest k

/-- Modelled from the spec: a teardown touching a path decrements its count,
removing the entry when the count transitions to zero. -/
def drop (counts : List (String × Nat)) (p : String) : List (String × Nat) :=
  match aGet counts p with
  | some n => if n ≤ 1 then aRemove counts p else aSet counts p (n - 1)
  | none => counts

/-- The reference count recorded for a path, zero when absent. -/
def countAt (counts : List (String × Nat)) (p : String) : Nat :=
  (aGet counts p).getD 0

/-- A folder has a child when some registered path extends it by a dot. -/
def hasChild (counts : List (String × Nat)) (f : String) : Bool :=
  counts.any (fun q => List.isPrefixOf (f ++ ".").data q.1.data)

/-- Modelled from the spec: the store state the ownership coordinator
maintains — the reference-counted path table and the set of folder entries. -/
structure Store where
  counts : List (String × Nat)
  folders : List String

/-- One ownership operation: a logical registration touching a set of paths
and recording a set of folder paths, or the teardown of a registration
touching its paths. -/
inductive Op where
  | reg (paths : List String) (folderPaths : List String)
  | unreg (paths : List String)

/-- Modelled from the spec: applying one ownership operation. A registration
bumps every touched path and records its folders; a teardown decrements
every touched path, removes entries whose count reaches zero, and then
prunes every folder entry left without any child path. -/
def applyOp (s : Store) : Op → Store
  | .reg ps fs =>
      { counts := ps.foldl bump s.counts
        folders := fs.foldl (fun acc f => if acc.contains f then acc else acc ++ [f])
          s.folders }
  | .unreg ps =>
      let counts1 := ps.foldl drop s.counts
      { counts := counts1
        folders := s.folders.filter (fun f => hasChild counts1 f) }

/-- Run a sequence of ownership operations against an empty store. -/
def run (ops : List Op) : Store :=
  ops.foldl applyOp { counts := [], folders := [] }

/-- How many registrations in the sequence touch the path. -/
def regsTouching (ops : List Op) (p : String) : Nat :=
  (ops.map (fun op => match op with | .reg ps _ => ps.count p | .unreg _ => 0)).sum

/-- How many teardowns in the sequence touch the path. -/
def unregsTouching (ops : List Op) (p : String) : Nat :=
  (ops.map (fun op => match op with | .reg _ _ => 0 | .unreg ps => ps.count p)).sum

/-- The paths an operation touches. -/
def opPaths (op : Op) : List String :=
  match op with
  | .reg ps _ => ps
  | .unreg ps => ps

/-- Every path any operation of the sequence touches. -/
def allPaths (ops : List Op) : List String :=
  ops.foldr (fun op acc => opPaths op ++ acc) []

/-- Well-formedness of an operation sequence (decidable form): in every
prefix, no path has been torn down more often than it was registered — each
teardown releases a previously acquired registration. -/
def wfOps (ops : List Op) : Bool :=
  (List.range (ops.length + 1)).all (fun n =>
    (allPaths ops).all (fun p =>
      unregsTouching (ops.take n) p ≤ regsTouching (ops.take n) p))

/-- Well-formedness of a count table: one entry per path, counts at least
one (an entry is removed when its count transitions to zero). -/
def WFCounts (counts : List (String × Nat)) : Prop :=
  (counts.map Prod.fst).Nodup ∧ ∀ pe ∈ counts, 1 ≤ pe.2

/-- Concrete operation sequence for evaluation: two overlapping
registrations and the teardown of the first. -/
def sampleOps : List Op :=
  [.reg ["f.a", "f.b"] ["f"], .reg ["f.a"] [], .unreg ["f.a", "f.b"]]

end RefCount

end Leva

namespace Leva

theorem aGet_aSet_self {α : Type} (o : List (String × α)) (k : String) (v : α) :
    aGet (aSet o k v) k = some v := by
  induction o with
  | nil => simp [aGet, aSet, List.find?]
  | cons p rest ih =>
    by_cases hp : p.1 == k
    · simp [aGet, aSet, hp, List.find?]
    · simp only [aSet, hp, if_false]
      simpa [aGet, List.find?_cons, hp] using ih

theorem aGet_aSet_other {α : Type} (o : List (String × α)) (k k' : String) (v : α)
    (h : k' ≠ k) : aGet (aSet o k v) k' = aGet o k' := by
  have hkk : (k == k') = false := by
    cases hq : k == k'
    · rfl
    · exact absurd (eq_of_beq hq).symm h
  induction o with
  | nil => simp [aGet, aSet, List.find?, hkk]
  | cons p rest ih =>
    by_cases hp : p.1 == k
    · have hp1 : p.1 = k := eq_of_beq hp
      have hpk' : (p.1 == k') = false := by rw [hp1]; exact hkk
      simp [aGet, aSet, hp, List.find?_cons, hkk, hpk']
    · simp only [aSet, hp, if_false]
      by_cases hq : p.1 == k'
      · simp [aGet, List.find?_cons, hq]
      · simpa [aGet, List.find?_cons, hq] using ih

theorem aHas_iff_aGet {α : Type} (o : List (String × α)) (k : String) :
    aHas o k = true ↔ ∃ v, aGet o k = some v := by
  induction o with
  | nil => simp [aHas, aGet]
  | cons p rest ih =>
    by_cases hp : p.1 == k
    · simp [aHas, aGet, List.find?_cons, hp]
    · simpa [aHas, aGet, List.find?_cons, hp] using ih

theorem aGet_append {α : Type} (o₁ o₂ : List (String × α)) (k : String) :
    aGet (o₁ ++ o₂) k = (aGet o₁ k).orElse (fun _ => aGet o₂ k) := by
  unfold aGet
  rw [List.find?_append]
  cases List.find? (fun p => p.1 == k) o₁ <;> simp

theorem aGetLast_append {α : Type} (o₁ o₂ : List (String × α)) (k : String) :
    aGetLast (o₁ ++ o₂) k = (aGetLast o₂ k).orElse (fun _ => aGetLast o₁ k) := by
  unfold aGetLast
  rw [List.reverse_append, List.find?_append]
  cases List.find? (fun p => p.1 == k) o₂.reverse <;> simp

theorem aGet_aSpread {α : Type} (base extra : List (String × α)) (k : String) :
    aGet (aSpread base extra) k = (aGetLast extra k).orElse (fun _ => aGet base k) := by
  induction extra generalizing base with
  | nil => simp [aSpread, aGetLast]
  | cons p rest ih =>
    have hstep : aSpread base (p :: rest) = aSpread (aSet base p.1 p.2) rest := by
      simp [aSpread]
    rw [hstep, ih]
    have hrev : aGetLast (p :: rest) k = (aGetLast rest k).orElse
        (fun _ => aGetLast [p] k) := by
      have : p :: rest = [p] ++ rest := rfl
      rw [this, aGetLast_append]
    rw [hrev]
    by_cases hk : k = p.1
    · have hget : aGet (aSet base p.1 p.2) k = some p.2 := by
        rw [hk]; exact aGet_aSet_self base p.1 p.2
      have hlastp : aGetLast [p] k = some p.2 := by
        have hpk : (p.1 == k) = true := by rw [hk]; simp
        simp [aGetLast, List.find?, hpk]
      rw [hlastp, hget]
      cases aGetLast rest k <;> simp
    · have : aGetLast [p] k = none := by
        have hpk : (p.1 == k) = false := by
          cases hq : p.1 == k
          · rfl
          · exact absurd (eq_of_beq hq).symm hk
        simp [aGetLast, List.find?, hpk]
      rw [this, aGet_aSet_other _ _ _ _ hk]
      cases aGetLast rest k <;> simp

/-- C1: when a committed write through `useInputSetters.onUpdate` makes
`setValue` throw, a typed sanitization failure (error whose `type` field is
`LEVA_ERROR`, carrying the last-known-good value as `previousValue`) is caught
and the display value is reverted to the formatted `previousValue`, while any
error whose `type` is not `LEVA_ERROR` is rethrown to the caller unchanged. -/
theorem onUpdate_sanitization_failure {V D : Type} (setFormat : Option V → D)
    (setValue : V → Except (ThrownError V) Unit) (displayValue : D)
    (updatedValue : V) (e : ThrownError V)
    (herr : setValue updatedValue = .error e) :
    (e.type = some "LEVA_ERROR" →
      onUpdate setFormat setValue displayValue updatedValue =
        .ok (setFormat e.previousValue)) ∧
    (e.type ≠ some "LEVA_ERROR" →
      onUpdate setFormat setValue displayValue updatedValue = .error e) := by
  constructor <;> intro h <;> simp [onUpdate, herr, h]

/-- C1 witness: on the concrete rejecting `setValue`s, the display reverts to
the formatted carried value for the `LEVA_ERROR` error, and the foreign error
is rethrown. -/
theorem onUpdate_sanitization_failure_witness :
    onUpdate (fun v => v) sanitizeSetValue (some 3) 99 = .ok (some 5) ∧
    onUpdate (fun v => v) throwingSetValue (some 3) 99 =
      .error { type := some "TypeError", previousValue := none } := by
  constructor
  · exact (onUpdate_sanitization_failure (fun v => v) sanitizeSetValue (some 3) 99
      { type := some "LEVA_ERROR", previousValue := some 5 }
      (by norm_num [sanitizeSetValue])).1 rfl
  · exact (onUpdate_sanitization_failure (fun v => v) throwingSetValue (some 3) 99
      { type := some "TypeError", previousValue := none }
      (by norm_num [throwingSetValue])).2 (by simp)

/-- C9: for every argument combination of the headless `useControls` wrapper,
`reconstructArgsWithHeadless` yields a base-hook argument list whose
hook-settings slot (index 3 in the folder-named form, index 1 in the
schema-only form) is an object with `headless` equal to `true` — even when the
caller passed `headless: false` — preserving every other hook-settings field,
while the schema or folder name, folder settings, and dependency list are
passed through unchanged in their positions. -/
theorem reconstructArgsWithHeadless_spec (p : ReconstructParams) :
    (∃ fields,
      (reconstructArgsWithHeadless p)[if folderTruthy p then 3 else 1]? =
        some (JsVal.obj fields) ∧
      aGet fields "headless" = some (.bool true) ∧
      ∀ k, k ≠ "headless" → aGet fields k = aGet (hookSettingsFields p.hookSettings) k) ∧
    (reconstructArgsWithHeadless p)[(0 : Nat)]? = some p.schemaOrFolderName ∧
    (folderTruthy p = true →
      (reconstructArgsWithHeadless p)[(1 : Nat)]? = some p.settingsOrDepsOrSchema ∧
      (reconstructArgsWithHeadless p)[(2 : Nat)]? = some p.depsOrSettingsOrFolderSettings ∧
      (reconstructArgsWithHeadless p)[(4 : Nat)]? =
        some (if isHookSettings p.depsOrSettings then p.depsOrUndefined
              else p.depsOrSettings)) ∧
    (folderTruthy p = false →
      (reconstructArgsWithHeadless p)[(2 : Nat)]? =
        some (if isHookSettings p.settingsOrDepsOrSchema then p.depsOrSettingsOrFolderSettings
              else p.settingsOrDepsOrSchema)) := by
  have hfields : ∀ k, k ≠ "headless" →
      aGet (aSet (hookSettingsFields p.hookSettings) "headless" (.bool true)) k =
        aGet (hookSettingsFields p.hookSettings) k := by
    intro k hk
    exact aGet_aSet_other _ _ _ _ hk
  refine ⟨⟨aSet (hookSettingsFields p.hookSettings) "headless" (.bool true), ?_,
      aGet_aSet_self _ _ _, hfields⟩, ?_, ?_, ?_⟩
  · cases hf : folderTruthy p <;>
      cases hs : isHookSettings p.settingsOrDepsOrSchema <;>
      cases hd : isHookSettings p.depsOrSettings <;>
      simp [reconstructArgsWithHeadless, createHeadlessSettings, hf, hs, hd]
  · cases hf : folderTruthy p <;>
      cases hs : isHookSettings p.settingsOrDepsOrSchema <;>
      cases hd : isHookSettings p.depsOrSettings <;>
      simp [reconstructArgsWithHeadless, hf, hs, hd]
  · intro hf
    cases hd : isHookSettings p.depsOrSettings <;>
      simp [reconstructArgsWithHeadless, hf, hd]
  · intro hf
    cases hs : isHookSettings p.settingsOrDepsOrSchema <;>
      simp [reconstructArgsWithHeadless, hf, hs]

/-- C9 witness: at the concrete folder-named call that passed
`headless: false`, the reconstructed list carries the folder name first, the
dependency list in the deps slot, and an object whose `headless` field is
`true` and whose `store` field is preserved in the hook-settings slot. -/
theorem reconstructArgsWithHeadless_spec_witness :
    (reconstructArgsWithHeadless headlessSampleParams)[(0 : Nat)]? =
      some (JsVal.str "myFolder") ∧
    (reconstructArgsWithHeadless headlessSampleParams)[(4 : Nat)]? =
      some (JsVal.arr [.num 7]) ∧
    (∃ fields,
      (reconstructArgsWithHeadless headlessSampleParams)[(3 : Nat)]? =
        some (JsVal.obj fields) ∧
      aGet fields "headless" = some (.bool true) ∧
      aGet fields "store" = some (.str "store0")) := by
  have h := reconstructArgsWithHeadless_spec headlessSampleParams
  refine ⟨h.2.1, ?_, ?_⟩
  · have h4 := (h.2.2.1 (by rfl)).2.2
    simpa [headlessSampleParams, isHookSettings] using h4
  · obtain ⟨fields, hslot, hheadless, hrest⟩ := h.1
    refine ⟨fields, ?_, hheadless, ?_⟩
    · simpa [headlessSampleParams, folderTruthy] using hslot
    · rw [hrest "store" (by decide)]
      rfl

theorem useValuesStep_get_other (data : Data) (acc : Obj) (p q : String)
    (h : p ≠ q) : aGet (useValuesStep data acc p) q = aGet acc q := by
  unfold useValuesStep
  cases aGet data p with
  | none => rfl
  | some entry =>
    by_cases hv : aHas entry "value"
    · simp only [hv, if_true]
      exact aGet_aSet_other _ _ _ _ (Ne.symm h)
    · simp [hv]

theorem useValuesStep_get_self (data : Data) (acc : Obj) (q : String) :
    aGet (useValuesStep data acc q) q =
      (dataValueAt data q).orElse (fun _ => aGet acc q) := by
  unfold useValuesStep dataValueAt
  cases aGet data q with
  | none => simp
  | some entry =>
    by_cases hv : aHas entry "value"
    · simp [hv, aGet_aSet_self]
    · simp [hv]

theorem useValuesSelector_fold_get (data : Data) (paths : List String)
    (acc : Obj) (q : String) :
    aGet (paths.foldl (useValuesStep data) acc) q =
      (if q ∈ paths then dataValueAt data q else none).orElse
        (fun _ => aGet acc q) := by
  induction paths generalizing acc with
  | nil => simp
  | cons p rest ih =>
    rw [List.foldl_cons, ih]
    by_cases hqr : q ∈ rest
    · simp only [hqr, if_true, List.mem_cons, or_true]
      cases hdv : dataValueAt data q with
      | some v => simp
      | none =>
        show aGet (useValuesStep data acc p) q = aGet acc q
        by_cases hpq : p = q
        · rw [hpq, useValuesStep_get_self, hdv]
          rfl
        · exact useValuesStep_get_other data acc p q hpq
    · by_cases hpq : p = q
      · have hmem : q ∈ p :: rest := by rw [hpq]; exact List.mem_cons_self q rest
        simp only [hqr, if_false, hmem, if_true, Option.none_orElse]
        rw [hpq, useValuesStep_get_self]
        rfl
      · have hmem : q ∉ p :: rest := by
          intro hc
          rcases List.mem_cons.mp hc with h1 | h2
          · exact hpq h1.symm
          · exact hqr h2
        simp only [hqr, if_false, hmem, Option.none_orElse]
        rw [useValuesStep_get_other data acc p q hpq]

/-- C10: the `useValues` subscription returns exactly the requested paths that
exist in the store data and carry a `value` field, each mapped to its current
value; a path that was never registered, or that names a value-less special
entry, is silently omitted — while the spec-modelled registration-scoped `get`
accessor errors on an unknown path. -/
theorem useValues_value_paths (data : Data) (paths : List String) (path : String) :
    (∀ v, aGet (useValuesSelector data paths) path = some v ↔
      (path ∈ paths ∧ ∃ e, aGet data path = some e ∧ aGet e "value" = some v)) ∧
    (aGet data path = none →
      aGet (useValuesSelector data paths) path = none ∧
      specGet data path = Except.error "unknown path") ∧
    (∀ e, aGet data path = some e → aHas e "value" = false →
      aGet (useValuesSelector data paths) path = none) := by
  have hfold := useValuesSelector_fold_get data paths [] path
  have hbase : aGet ([] : Obj) path = none := rfl
  rw [hbase] at hfold
  have hsel : aGet (useValuesSelector data paths) path =
      if path ∈ paths then dataValueAt data path else none := by
    rw [useValuesSelector, hfold]
    cases h : (if path ∈ paths then dataValueAt data path else none) <;> simp [h]
  refine ⟨?_, ?_, ?_⟩
  · intro v
    rw [hsel]
    by_cases hmem : path ∈ paths
    · simp only [hmem, if_true, true_and]
      unfold dataValueAt
      cases hd : aGet data path with
      | none => simp
      | some entry =>
        by_cases hv : aHas entry "value"
        · rcases (aHas_iff_aGet entry "value").mp hv with ⟨w, hw⟩
          simp only [hv, if_true, hw, Option.getD_some]
          constructor
          · intro h1
            refine ⟨entry, rfl, ?_⟩
            rw [hw]
            exact h1
          · rintro ⟨e, he, hev⟩
            rw [Option.some_inj] at he
            rw [← he] at hev
            rw [hw] at hev
            exact hev
        · simp only [hv, if_false]
          constructor
          · intro h1
            exact absurd h1 (by simp)
          · rintro ⟨e, he, hev⟩
            rw [Option.some_inj] at he
            rw [← he] at hev
            exact absurd ((aHas_iff_aGet entry "value").mpr ⟨v, hev⟩) hv
    · simp only [hmem, if_false, false_and, iff_false]
      simp
  · intro hnone
    refine ⟨?_, by simp [specGet, hnone]⟩
    rw [hsel]
    unfold dataValueAt
    rw [hnone]
    simp
  · intro e he hv
    rw [hsel]
    unfold dataValueAt
    rw [he]
    simp [hv]

/-- C10 witness: on the concrete data, the subscription returns the number
input's value, omits the requested button-like entry and the unregistered
path, and the spec-modelled accessor errors on the unregistered path. -/
theorem useValues_value_paths_witness :
    aGet (useValuesSelector useValuesSampleData ["folderA.n", "buttonB", "ghost"])
      "folderA.n" = some (.num 42) ∧
    aGet (useValuesSelector useValuesSampleData ["folderA.n", "buttonB", "ghost"])
      "buttonB" = none ∧
    aGet (useValuesSelector useValuesSampleData ["folderA.n", "buttonB", "ghost"])
      "ghost" = none ∧
    specGet useValuesSampleData "ghost" = Except.error "unknown path" := by
  refine ⟨?_, ?_, ?_, ?_⟩
  · exact ((useValues_value_paths useValuesSampleData
      ["folderA.n", "buttonB", "ghost"] "folderA.n").1 (.num 42)).mpr
      ⟨by simp, [("type", .str "NUMBER"), ("value", .num 42)], rfl, rfl⟩
  · exact (useValues_value_paths useValuesSampleData
      ["folderA.n", "buttonB", "ghost"] "buttonB").2.2
      [("type", .str "BUTTON")] rfl rfl
  · exact ((useValues_value_paths useValuesSampleData
      ["folderA.n", "buttonB", "ghost"] "ghost").2.1 rfl).1
  · exact ((useValues_value_paths useValuesSampleData
      ["folderA.n", "buttonB", "ghost"] "ghost").2.1 rfl).2

theorem join_length_lt (rootPath key : String) (h : key ≠ "") :
    rootPath.length < (join rootPath key).length := by
  have hkey : 0 < key.length := by
    cases key with
    | mk l =>
      cases l with
      | nil => exact absurd rfl h
      | cons c cs => simp [String.length]
  unfold join
  by_cases hr : rootPath = ""
  · simp only [hr, if_true]
    simpa [hr] using hkey
  · simp only [hr, if_false, h, String.length_append]
    omega

theorem folderUpdate_mappedPaths (st1 : WalkState) (newPath : String) (fs : JsVal) :
    (folderUpdate st1 newPath fs).mappedPaths = st1.mappedPaths := by
  unfold folderUpdate
  split <;> rfl

theorem folderUpdate_folders (st1 : WalkState) (newPath : String) (fs : JsVal) :
    (folderUpdate st1 newPath fs).folders =
      if aHas st1.folders newPath then st1.folders
      else st1.folders ++ [(newPath, fs)] := by
  unfold folderUpdate
  split <;> simp_all

theorem getDataFromSchema_cons_empty (norm : NormalizeFn)
    (ri : RawInput) (rest : List (String × RawInput)) (rootPath : String)
    (data : Data) (st : WalkState) :
    getDataFromSchema norm (("", ri) :: rest) rootPath data st =
      ((getDataFromSchema norm rest rootPath data st).1,
       (getDataFromSchema norm rest rootPath data st).2.1,
       .emptyKey :: (getDataFromSchema norm rest rootPath data st).2.2) := by
  simp [getDataFromSchema]

theorem getDataFromSchema_cons_folder (norm : NormalizeFn) (key : String)
    (schema : List (String × RawInput)) (fsettings : JsVal)
    (rest : List (String × RawInput)) (rootPath : String) (data : Data)
    (st : WalkState) (hk : key ≠ "") :
    getDataFromSchema norm ((key, .folder schema fsettings) :: rest) rootPath data st =
      ((getDataFromSchema norm rest rootPath
          (aSpread data (getDataFromSchema norm schema (join rootPath key) [] st).1)
          (folderUpdate (getDataFromSchema norm schema (join rootPath key) [] st).2.1
            (join rootPath key) fsettings)).1,
       (getDataFromSchema norm rest rootPath
          (aSpread data (getDataFromSchema norm schema (join rootPath key) [] st).1)
          (folderUpdate (getDataFromSchema norm schema (join rootPath key) [] st).2.1
            (join rootPath key) fsettings)).2.1,
       (getDataFromSchema norm schema (join rootPath key) [] st).2.2 ++
         (getDataFromSchema norm rest rootPath
            (aSpread data (getDataFromSchema norm schema (join rootPath key) [] st).1)
            (folderUpdate (getDataFromSchema norm schema (join rootPath key) [] st).2.1
              (join rootPath key) fsettings)).2.2) := by
  simp [getDataFromSchema, hk]

theorem getDataFromSchema_cons_dup (norm : NormalizeFn) (key : String)
    (raw : JsVal) (rest : List (String × RawInput)) (rootPath : String)
    (data : Data) (st : WalkState) (hk : key ≠ "")
    (hdup : aHas st.mappedPaths key = true) :
    getDataFromSchema norm ((key, .plain raw) :: rest) rootPath data st =
      ((getDataFromSchema norm rest rootPath data st).1,
       (getDataFromSchema norm rest rootPath data st).2.1,
       .duplicateKeys key (join rootPath key)
           (((aGet st.mappedPaths key).map (fun mp => mp.path)).getD "") ::
         (getDataFromSchema norm rest rootPath data st).2.2) := by
  simp [getDataFromSchema, hk, hdup]

theorem getDataFromSchema_cons_norm (norm : NormalizeFn) (key : String)
    (raw : JsVal) (rest : List (String × RawInput)) (rootPath : String)
    (data : Data) (st : WalkState) (n : NormalizedInput) (hk : key ≠ "")
    (hdup : aHas st.mappedPaths key = false)
    (hn : norm raw key (join rootPath key) data = some n) :
    getDataFromSchema norm ((key, .plain raw) :: rest) rootPath data st =
      getDataFromSchema norm rest rootPath
        (aSet data (join rootPath key) (entryFromNormalized n))
        (withMapped st key (mappedFromOptions (join rootPath key) n.options)) := by
  simp [getDataFromSchema, hk, hdup, hn]

theorem getDataFromSchema_cons_unknown (norm : NormalizeFn) (key : String)
    (raw : JsVal) (rest : List (String × RawInput)) (rootPath : String)
    (data : Data) (st : WalkState) (hk : key ≠ "")
    (hdup : aHas st.mappedPaths key = false)
    (hn : norm raw key (join rootPath key) data = none) :
    getDataFromSchema norm ((key, .plain raw) :: rest) rootPath data st =
      ((getDataFromSchema norm rest rootPath data st).1,
       (getDataFromSchema norm rest rootPath data st).2.1,
       .unknownInput (join rootPath key) ::
         (getDataFromSchema norm rest rootPath data st).2.2) := by
  simp [getDataFromSchema, hk, hdup, hn]

theorem getDataFromSchema_state_mono (norm : NormalizeFn)
    (entries : List (String × RawInput)) (rootPath : String) (data : Data)
    (st : WalkState) :
    ∃ t₁ t₂,
      ((getDataFromSchema norm entries rootPath data st).2.1).mappedPaths =
        st.mappedPaths ++ t₁ ∧
      ((getDataFromSchema norm entries rootPath data st).2.1).folders =
        st.folders ++ t₂ ∧
      ∀ q ∈ t₂, rootPath.length < q.1.length := by
  match entries with
  | [] => exact ⟨[], [], by simp [getDataFromSchema], by simp [getDataFromSchema], by simp⟩
  | (key, ri) :: rest =>
    by_cases hk : key = ""
    · subst hk
      obtain ⟨t₁, t₂, h1, h2, h3⟩ :=
        getDataFromSchema_state_mono norm rest rootPath data st
      exact ⟨t₁, t₂, by rw [getDataFromSchema_cons_empty]; exact h1,
        by rw [getDataFromSchema_cons_empty]; exact h2, h3⟩
    · cases ri with
      | folder schema fsettings =>
        obtain ⟨s₁, s₂, hs1, hs2, hs3⟩ :=
          getDataFromSchema_state_mono norm schema (join rootPath key) [] st
        obtain ⟨u₁, u₂, hu1, hu2, hu3⟩ :=
          getDataFromSchema_state_mono norm rest rootPath
            (aSpread data (getDataFromSchema norm schema (join rootPath key) [] st).1)
            (folderUpdate (getDataFromSchema norm schema (join rootPath key) [] st).2.1
              (join rootPath key) fsettings)
        rw [folderUpdate_mappedPaths] at hu1
        rw [folderUpdate_folders] at hu2
        by_cases hhas :
            aHas (getDataFromSchema norm schema (join rootPath key) [] st).2.1.folders
              (join rootPath key)
        · rw [if_pos hhas] at hu2
          refine ⟨s₁ ++ u₁, s₂ ++ u₂, ?_, ?_, ?_⟩
          · rw [getDataFromSchema_cons_folder norm key schema fsettings rest rootPath
              data st hk]
            rw [hu1, hs1, List.append_assoc]
          · rw [getDataFromSchema_cons_folder norm key schema fsettings rest rootPath
              data st hk]
            rw [hu2, hs2, List.append_assoc]
          · intro q hq
            rcases List.mem_append.mp hq with hq | hq
            · exact lt_trans (join_length_lt rootPath key hk) (hs3 q hq)
            · exact hu3 q hq
        · rw [if_neg hhas] at hu2
          refine ⟨s₁ ++ u₁, (s₂ ++ [(join rootPath key, fsettings)]) ++ u₂, ?_, ?_, ?_⟩
          · rw [getDataFromSchema_cons_folder norm key schema fsettings rest rootPath
              data st hk]
            rw [hu1, hs1, List.append_assoc]
          · rw [getDataFromSchema_cons_folder norm key schema fsettings rest rootPath
              data st hk]
            rw [hu2, hs2]
            simp [List.append_assoc]
          · intro q hq
            rcases List.mem_append.mp hq with hq | hq
            · rcases List.mem_append.mp hq with hq | hq
              · exact lt_trans (join_length_lt rootPath key hk) (hs3 q hq)
              · rcases List.mem_singleton.mp hq with rfl
                exact join_length_lt rootPath key hk
            · exact hu3 q hq
      | plain raw =>
        cases hdup : aHas st.mappedPaths key with
        | true =>
          obtain ⟨t₁, t₂, h1, h2, h3⟩ :=
            getDataFromSchema_state_mono norm rest rootPath data st
          exact ⟨t₁, t₂,
            by rw [getDataFromSchema_cons_dup norm key raw rest rootPath data st hk hdup]
               exact h1,
            by rw [getDataFromSchema_cons_dup norm key raw rest rootPath data st hk hdup]
               exact h2, h3⟩
        | false =>
          cases hn : norm raw key (join rootPath key) data with
          | some n =>
            obtain ⟨t₁, t₂, h1, h2, h3⟩ :=
              getDataFromSchema_state_mono norm rest rootPath
                (aSet data (join rootPath key) (entryFromNormalized n))
                (withMapped st key (mappedFromOptions (join rootPath key) n.options))
            refine ⟨[(key, mappedFromOptions (join rootPath key) n.options)] ++ t₁, t₂,
              ?_, ?_, h3⟩
            · rw [getDataFromSchema_cons_norm norm key raw rest rootPath data st n hk
                hdup hn]
              rw [h1]
              simp [withMapped, List.append_assoc]
            · rw [getDataFromSchema_cons_norm norm key raw rest rootPath data st n hk
                hdup hn]
              rw [h2]
              simp [withMapped]
          | none =>
            obtain ⟨t₁, t₂, h1, h2, h3⟩ :=
              getDataFromSchema_state_mono norm rest rootPath data st
            exact ⟨t₁, t₂,
              by rw [getDataFromSchema_cons_unknown norm key raw rest rootPath data st
                   hk hdup hn]
                 exact h1,
              by rw [getDataFromSchema_cons_unknown norm key raw rest rootPath data st
                   hk hdup hn]
                 exact h2, h3⟩

theorem aGet_eq_none_of_not_aHas {α : Type} (o : List (String × α)) (k : String)
    (h : aHas o k = false) : aGet o k = none := by
  cases hg : aGet o k with
  | none => rfl
  | some v =>
    rw [(aHas_iff_aGet o k).mpr ⟨v, hg⟩] at h
    exact absurd h (by simp)

theorem aGet_eq_none_of_all {α : Type} (o : List (String × α)) (k : String)
    (h : ∀ p ∈ o, (p.1 == k) = false) : aGet o k = none := by
  unfold aGet
  rw [List.find?_eq_none.mpr (fun p hp => by simp [h p hp])]
  rfl

theorem aGetLast_eq_none_of_all {α : Type} (o : List (String × α)) (k : String)
    (h : ∀ p ∈ o, (p.1 == k) = false) : aGetLast o k = none := by
  unfold aGetLast
  rw [List.find?_eq_none.mpr (fun p hp => by simp [h p (List.mem_reverse.mp hp)])]
  rfl

theorem getDataFromSchema_append (norm : NormalizeFn)
    (l₁ l₂ : List (String × RawInput)) (rootPath : String) (data : Data)
    (st : WalkState) :
    getDataFromSchema norm (l₁ ++ l₂) rootPath data st =
      ((getDataFromSchema norm l₂ rootPath (getDataFromSchema norm l₁ rootPath data st).1
          (getDataFromSchema norm l₁ rootPath data st).2.1).1,
       (getDataFromSchema norm l₂ rootPath (getDataFromSchema norm l₁ rootPath data st).1
          (getDataFromSchema norm l₁ rootPath data st).2.1).2.1,
       (getDataFromSchema norm l₁ rootPath data st).2.2 ++
         (getDataFromSchema norm l₂ rootPath (getDataFromSchema norm l₁ rootPath data st).1
            (getDataFromSchema norm l₁ rootPath data st).2.1).2.2) := by
  induction l₁ generalizing data st with
  | nil => simp [getDataFromSchema]
  | cons e l₁ ih =>
    obtain ⟨key, ri⟩ := e
    by_cases hk : key = ""
    · subst hk
      rw [List.cons_append, getDataFromSchema_cons_empty,
        getDataFromSchema_cons_empty, ih]
      simp
    · cases ri with
      | folder schema fsettings =>
        rw [List.cons_append,
          getDataFromSchema_cons_folder norm key schema fsettings (l₁ ++ l₂) rootPath
            data st hk,
          getDataFromSchema_cons_folder norm key schema fsettings l₁ rootPath
            data st hk, ih]
        simp [List.append_assoc]
      | plain raw =>
        cases hdup : aHas st.mappedPaths key with
        | true =>
          rw [List.cons_append,
            getDataFromSchema_cons_dup norm key raw (l₁ ++ l₂) rootPath data st hk hdup,
            getDataFromSchema_cons_dup norm key raw l₁ rootPath data st hk hdup, ih]
          simp
        | false =>
          cases hn : norm raw key (join rootPath key) data with
          | some n =>
            rw [List.cons_append,
              getDataFromSchema_cons_norm norm key raw (l₁ ++ l₂) rootPath data st n
                hk hdup hn,
              getDataFromSchema_cons_norm norm key raw l₁ rootPath data st n
                hk hdup hn, ih]
          | none =>
            rw [List.cons_append,
              getDataFromSchema_cons_unknown norm key raw (l₁ ++ l₂) rootPath data st
                hk hdup hn,
              getDataFromSchema_cons_unknown norm key raw l₁ rootPath data st
                hk hdup hn, ih]
            simp

/-- C4: a schema entry with an empty string key produces an `EMPTY_KEY`
diagnostic and is skipped, and all sibling entries are still processed: the
resulting data mapping and walk state are those of the same schema without
the empty-keyed entry, and the warning stream inserts exactly the one
diagnostic between the siblings before and after it. -/
theorem emptyKey_skipped (norm : NormalizeFn) (l₁ l₂ : List (String × RawInput))
    (ri : RawInput) (rootPath : String) (data : Data) (st : WalkState) :
    (getDataFromSchema norm (l₁ ++ ("", ri) :: l₂) rootPath data st).1 =
      (getDataFromSchema norm (l₁ ++ l₂) rootPath data st).1 ∧
    (getDataFromSchema norm (l₁ ++ ("", ri) :: l₂) rootPath data st).2.1 =
      (getDataFromSchema norm (l₁ ++ l₂) rootPath data st).2.1 ∧
    (getDataFromSchema norm (l₁ ++ ("", ri) :: l₂) rootPath data st).2.2 =
      (getDataFromSchema norm l₁ rootPath data st).2.2 ++
        Warning.emptyKey ::
          (getDataFromSchema norm l₂ rootPath
            (getDataFromSchema norm l₁ rootPath data st).1
            (getDataFromSchema norm l₁ rootPath data st).2.1).2.2 := by
  rw [getDataFromSchema_append norm l₁ (("", ri) :: l₂) rootPath data st,
    getDataFromSchema_cons_empty,
    getDataFromSchema_append norm l₁ l₂ rootPath data st]
  exact ⟨rfl, rfl, rfl⟩

/-- C3: a non-folder schema entry whose short key is already present in the
accumulated short-key mapping is dropped with a `DUPLICATE_KEYS` diagnostic
naming the first-mapped path: the walk result equals the walk of the sibling
entries alone plus that diagnostic, and after the whole walk the short-key
mapping still holds the first-mapped record. -/
theorem duplicate_key_dropped (norm : NormalizeFn) (key : String) (raw : JsVal)
    (l₂ : List (String × RawInput)) (rootPath : String) (data : Data)
    (st : WalkState) (mp : MappedPath) (hk : key ≠ "")
    (hmp : aGet st.mappedPaths key = some mp) :
    getDataFromSchema norm ((key, .plain raw) :: l₂) rootPath data st =
      ((getDataFromSchema norm l₂ rootPath data st).1,
       (getDataFromSchema norm l₂ rootPath data st).2.1,
       .duplicateKeys key (join rootPath key) mp.path ::
         (getDataFromSchema norm l₂ rootPath data st).2.2) ∧
    aGet ((getDataFromSchema norm ((key, .plain raw) :: l₂) rootPath
        data st).2.1).mappedPaths key = some mp := by
  have hdup : aHas st.mappedPaths key = true := (aHas_iff_aGet _ _).mpr ⟨mp, hmp⟩
  have hstep := getDataFromSchema_cons_dup norm key raw l₂ rootPath data st hk hdup
  rw [hmp] at hstep
  refine ⟨by rw [hstep]; rfl, ?_⟩
  rw [hstep]
  obtain ⟨t₁, t₂, h1, h2, h3⟩ := getDataFromSchema_state_mono norm l₂ rootPath data st
  show aGet ((getDataFromSchema norm l₂ rootPath data st).2.1).mappedPaths key = some mp
  rw [h1, aGet_append, hmp]
  rfl

/-- C8: a non-folder schema entry claimed by no registered type matcher
(`normalizeInput` yields nothing) is reported with an `UNKNOWN_INPUT`
diagnostic at its full path and contributes nothing: the walk result equals
the walk of the remaining sibling entries from the unchanged data and state,
plus that diagnostic. -/
theorem unknownInput_skipped (norm : NormalizeFn) (key : String) (raw : JsVal)
    (l₂ : List (String × RawInput)) (rootPath : String) (data : Data)
    (st : WalkState) (hk : key ≠ "") (hdup : aHas st.mappedPaths key = false)
    (hn : norm raw key (join rootPath key) data = none) :
    getDataFromSchema norm ((key, .plain raw) :: l₂) rootPath data st =
      ((getDataFromSchema norm l₂ rootPath data st).1,
       (getDataFromSchema norm l₂ rootPath data st).2.1,
       .unknownInput (join rootPath key) ::
         (getDataFromSchema norm l₂ rootPath data st).2.2) ∧
    aGet (getDataFromSchema norm ((key, .plain raw) :: l₂) rootPath data st).1
        (join rootPath key) =
      aGet (getDataFromSchema norm l₂ rootPath data st).1 (join rootPath key) ∧
    aGet ((getDataFromSchema norm ((key, .plain raw) :: l₂) rootPath
        data st).2.1).mappedPaths key =
      aGet ((getDataFromSchema norm l₂ rootPath data st).2.1).mappedPaths key := by
  have hstep := getDataFromSchema_cons_unknown norm key raw l₂ rootPath data st hk hdup hn
  exact ⟨hstep, by rw [hstep], by rw [hstep]⟩

/-- C8 witness: on the concrete schema, the string entry claimed by no type
matcher only yields the unknown-input diagnostic at its path, while the
sibling number entry still registers. -/
theorem unknownInput_skipped_witness :
    (getDataFromSchema sampleNorm
        [("name", .plain (.str "hello")), ("n", .plain (.num 2))]
        "" [] ⟨[], []⟩).2.2 = [Warning.unknownInput "name"] ∧
    aGet (getDataFromSchema sampleNorm
        [("name", .plain (.str "hello")), ("n", .plain (.num 2))]
        "" [] ⟨[], []⟩).1 "n" =
      some (entryFromNormalized
        { type := "NUMBER"
          options := [("label", .str "n"), ("onChange", .str "cb"),
            ("transient", .bool true)]
          input := [("value", .num 2), ("settings", .obj [])] }) := by
  have h := unknownInput_skipped sampleNorm "name" (.str "hello")
    [("n", .plain (.num 2))] "" [] ⟨[], []⟩ (by decide) rfl rfl
  have hn2 := getDataFromSchema_cons_norm sampleNorm "n" (.num 2) [] "" []
    ⟨[], []⟩
    { type := "NUMBER"
      options := [("label", .str "n"), ("onChange", .str "cb"),
        ("transient", .bool true)]
      input := [("value", .num 2), ("settings", .obj [])] }
    (by decide) rfl rfl
  constructor
  · rw [h.1]
    show Warning.unknownInput (join "" "name") ::
      (getDataFromSchema sampleNorm [("n", .plain (.num 2))] "" [] ⟨[], []⟩).2.2 = _
    rw [hn2]
    simp [getDataFromSchema, join]
  · rw [h.1]
    show aGet (getDataFromSchema sampleNorm [("n", .plain (.num 2))] "" []
      ⟨[], []⟩).1 "n" = _
    rw [hn2]
    simp only [getDataFromSchema]
    exact aGet_aSet_self _ _ _

/-- C3 witness: on the concrete schema whose short key `x` is already mapped
to `folder1.x`, the second `x` under `folder2` only emits the duplicate-keys
diagnostic naming both paths, and the first mapping survives. -/
theorem duplicate_key_dropped_witness :
    aGet ((getDataFromSchema sampleNorm [("x", .plain (.num 1))] "folder2" []
        sampleDupState).2.1).mappedPaths "x" = some sampleDupMapped ∧
    (getDataFromSchema sampleNorm [("x", .plain (.num 1))] "folder2" []
        sampleDupState).2.2 =
      [Warning.duplicateKeys "x" "folder2.x" "folder1.x"] := by
  have h := duplicate_key_dropped sampleNorm "x" (.num 1) [] "folder2" []
    sampleDupState sampleDupMapped (by decide) rfl
  refine ⟨h.2, ?_⟩
  rw [h.1]
  show Warning.duplicateKeys "x" (join "folder2" "x") sampleDupMapped.path ::
    (getDataFromSchema sampleNorm [] "folder2" [] sampleDupState).2.2 = _
  simp [getDataFromSchema, join, sampleDupMapped]

/-- C6: a successfully normalized non-folder entry stores at its full path an
entry record from which the four side-effect-only settings (`onChange`,
`transient`, `onEditStart`, `onEditEnd`) have been removed — provided the
normalized value record itself carries none of those keys, per the
normalizer contract — while the short-key mapping records those four settings
alongside the full path. -/
theorem callback_settings_split (norm : NormalizeFn) (key : String) (raw : JsVal)
    (rootPath : String) (data : Data) (st : WalkState) (n : NormalizedInput)
    (hk : key ≠ "") (hdup : aHas st.mappedPaths key = false)
    (hn : norm raw key (join rootPath key) data = some n)
    (hin : ∀ c ∈ callbackKeys, aHas n.input c = false) :
    aGet (getDataFromSchema norm [(key, .plain raw)] rootPath data st).1
        (join rootPath key) = some (entryFromNormalized n) ∧
    (∀ c ∈ callbackKeys, aGet (entryFromNormalized n) c = none) ∧
    aGet ((getDataFromSchema norm [(key, .plain raw)] rootPath
        data st).2.1).mappedPaths key =
      some (mappedFromOptions (join rootPath key) n.options) ∧
    mappedFromOptions (join rootPath key) n.options =
      { path := join rootPath key
        onChange := aGet n.options "onChange"
        transient := aGet n.options "transient"
        onEditStart := aGet n.options "onEditStart"
        onEditEnd := aGet n.options "onEditEnd" } := by
  have hstep := getDataFromSchema_cons_norm norm key raw [] rootPath data st n hk hdup hn
  refine ⟨?_, ?_, ?_, rfl⟩
  · rw [hstep]
    simp only [getDataFromSchema]
    exact aGet_aSet_self _ _ _
  · intro c hc
    have hcf : c ≠ "fromPanel" := by
      simp only [callbackKeys, List.mem_cons, List.not_mem_nil, or_false] at hc
      rcases hc with rfl | rfl | rfl | rfl <;> decide
    have hct : c ≠ "type" := by
      simp only [callbackKeys, List.mem_cons, List.not_mem_nil, or_false] at hc
      rcases hc with rfl | rfl | rfl | rfl <;> decide
    unfold entryFromNormalized
    rw [aGet_aSet_other _ _ _ _ hcf, aGet_aSpread]
    have hinl : aGetLast n.input c = none := by
      apply aGetLast_eq_none_of_all
      intro p hp
      cases hpc : p.1 == c with
      | false => rfl
      | true =>
        have habs : aHas n.input c = true := by
          unfold aHas
          exact List.any_eq_true.mpr ⟨p, hp, hpc⟩
        rw [hin c hc] at habs
        exact absurd habs (by simp)
    rw [hinl]
    show aGet (aSpread [("type", JsVal.str n.type)]
      (n.options.filter (fun p => !callbackKeys.contains p.1))) c = none
    rw [aGet_aSpread]
    have hfl : aGetLast (n.options.filter (fun p => !callbackKeys.contains p.1)) c =
        none := by
      apply aGetLast_eq_none_of_all
      intro p hp
      obtain ⟨hpo, hpf⟩ := List.mem_filter.mp hp
      cases hpc : p.1 == c with
      | false => rfl
      | true =>
        have hp1 : p.1 = c := eq_of_beq hpc
        rw [hp1] at hpf
        have hmem : callbackKeys.contains c = true := List.elem_iff.mpr hc
        rw [hmem] at hpf
        exact absurd hpf (by simp)
    rw [hfl]
    show aGet [("type", JsVal.str n.type)] c = none
    apply aGet_eq_none_of_all
    intro p hp
    rcases List.mem_singleton.mp hp with rfl
    cases hpc : (("type" : String) == c) with
    | false => rfl
    | true => exact absurd (eq_of_beq hpc).symm hct
  · rw [hstep]
    simp only [getDataFromSchema]
    show aGet (withMapped st key (mappedFromOptions (join rootPath key)
      n.options)).mappedPaths key = _
    unfold withMapped
    show aGet (st.mappedPaths ++
      [(key, mappedFromOptions (join rootPath key) n.options)]) key = _
    rw [aGet_append, aGet_eq_none_of_not_aHas st.mappedPaths key hdup]
    show aGet [(key, mappedFromOptions (join rootPath key) n.options)] key = _
    simp [aGet, List.find?]

/-- C6 witness: on the concrete schema entry `speed: 3`, the stored entry
record carries no `onChange` or `transient` field while the short-key mapping
holds them alongside the path. -/
theorem callback_settings_split_witness :
    aGet (getDataFromSchema sampleNorm [("speed", .plain (.num 3))] "" []
        ⟨[], []⟩).1 "speed" = some (entryFromNormalized sampleSpeedNorm) ∧
    aGet (entryFromNormalized sampleSpeedNorm) "onChange" = none ∧
    aGet (entryFromNormalized sampleSpeedNorm) "transient" = none ∧
    aGet ((getDataFromSchema sampleNorm [("speed", .plain (.num 3))] "" []
        ⟨[], []⟩).2.1).mappedPaths "speed" =
      some (mappedFromOptions "speed" sampleSpeedNorm.options) := by
  have h := callback_settings_split sampleNorm "speed" (.num 3) "" [] ⟨[], []⟩
    sampleSpeedNorm (by decide) rfl rfl (by decide)
  exact ⟨h.1, h.2.1 "onChange" (by decide), h.2.1 "transient" (by decide), h.2.2.1⟩

/-- C7: a folder entry is walked recursively under the path extended by the
folder's key, and its settings are recorded in the folders mapping only when
that resolved folder path has no recorded settings yet: previously recorded
settings survive the whole walk unchanged, and a fresh path records exactly
this folder's settings. -/
theorem folder_first_settings_win (norm : NormalizeFn) (key : String)
    (schema : List (String × RawInput)) (fsettings : JsVal)
    (rest : List (String × RawInput)) (rootPath : String) (data : Data)
    (st : WalkState) (hk : key ≠ "") :
    getDataFromSchema norm ((key, .folder schema fsettings) :: rest) rootPath data st =
      ((getDataFromSchema norm rest rootPath
          (aSpread data (getDataFromSchema norm schema (join rootPath key) [] st).1)
          (folderUpdate (getDataFromSchema norm schema (join rootPath key) [] st).2.1
            (join rootPath key) fsettings)).1,
       (getDataFromSchema norm rest rootPath
          (aSpread data (getDataFromSchema norm schema (join rootPath key) [] st).1)
          (folderUpdate (getDataFromSchema norm schema (join rootPath key) [] st).2.1
            (join rootPath key) fsettings)).2.1,
       (getDataFromSchema norm schema (join rootPath key) [] st).2.2 ++
         (getDataFromSchema norm rest rootPath
            (aSpread data (getDataFromSchema norm schema (join rootPath key) [] st).1)
            (folderUpdate (getDataFromSchema norm schema (join rootPath key) [] st).2.1
              (join rootPath key) fsettings)).2.2) ∧
    (∀ fs0, aGet st.folders (join rootPath key) = some fs0 →
      aGet ((getDataFromSchema norm ((key, .folder schema fsettings) :: rest)
          rootPath data st).2.1).folders (join rootPath key) = some fs0) ∧
    (aGet st.folders (join rootPath key) = none →
      aGet ((getDataFromSchema norm ((key, .folder schema fsettings) :: rest)
          rootPath data st).2.1).folders (join rootPath key) = some fsettings) := by
  have hstep := getDataFromSchema_cons_folder norm key schema fsettings rest rootPath
    data st hk
  obtain ⟨s₁, s₂, hs1, hs2, hs3⟩ :=
    getDataFromSchema_state_mono norm schema (join rootPath key) [] st
  obtain ⟨u₁, u₂, hu1, hu2, hu3⟩ :=
    getDataFromSchema_state_mono norm rest rootPath
      (aSpread data (getDataFromSchema norm schema (join rootPath key) [] st).1)
      (folderUpdate (getDataFromSchema norm schema (join rootPath key) [] st).2.1
        (join rootPath key) fsettings)
  have hs2get : aGet s₂ (join rootPath key) = none := by
    apply aGet_eq_none_of_all
    intro q hq
    cases hqc : q.1 == join rootPath key with
    | false => rfl
    | true =>
      have hq1 : q.1 = join rootPath key := eq_of_beq hqc
      have := hs3 q hq
      rw [hq1] at this
      exact absurd this (lt_irrefl _)
  refine ⟨hstep, ?_, ?_⟩
  · intro fs0 hfs0
    have hget1 : aGet ((getDataFromSchema norm schema (join rootPath key)
        [] st).2.1).folders (join rootPath key) = some fs0 := by
      rw [hs2, aGet_append, hfs0]
      rfl
    have hhas1 : aHas ((getDataFromSchema norm schema (join rootPath key)
        [] st).2.1).folders (join rootPath key) = true :=
      (aHas_iff_aGet _ _).mpr ⟨fs0, hget1⟩
    have hfu : (folderUpdate (getDataFromSchema norm schema (join rootPath key)
        [] st).2.1 (join rootPath key) fsettings).folders =
        ((getDataFromSchema norm schema (join rootPath key) [] st).2.1).folders := by
      rw [folderUpdate_folders, if_pos hhas1]
    rw [hstep]
    show aGet ((getDataFromSchema norm rest rootPath _ _).2.1).folders
      (join rootPath key) = some fs0
    rw [hu2, hfu, aGet_append, hget1]
    rfl
  · intro hnone
    have hget1 : aGet ((getDataFromSchema norm schema (join rootPath key)
        [] st).2.1).folders (join rootPath key) = none := by
      rw [hs2, aGet_append, hnone]
      exact hs2get
    have hhas1 : aHas ((getDataFromSchema norm schema (join rootPath key)
        [] st).2.1).folders (join rootPath key) = false := by
      cases hh : aHas ((getDataFromSchema norm schema (join rootPath key)
          [] st).2.1).folders (join rootPath key) with
      | false => rfl
      | true =>
        obtain ⟨v, hv⟩ := (aHas_iff_aGet _ _).mp hh
        rw [hv] at hget1
        exact absurd hget1 (by simp)
    have hfu : (folderUpdate (getDataFromSchema norm schema (join rootPath key)
        [] st).2.1 (join rootPath key) fsettings).folders =
        ((getDataFromSchema norm schema (join rootPath key) [] st).2.1).folders ++
          [(join rootPath key, fsettings)] := by
      rw [folderUpdate_folders]
      simp [hhas1]
    have hget2 : aGet ((folderUpdate (getDataFromSchema norm schema
        (join rootPath key) [] st).2.1 (join rootPath key) fsettings).folders)
        (join rootPath key) = some fsettings := by
      rw [hfu, aGet_append, hget1]
      show aGet [(join rootPath key, fsettings)] (join rootPath key) = some fsettings
      simp [aGet, List.find?]
    rw [hstep]
    show aGet ((getDataFromSchema norm rest rootPath _ _).2.1).folders
      (join rootPath key) = some fsettings
    rw [hu2, aGet_append, hget2]
    rfl

/-- C7 witness: walking the concrete folder schema from an empty state
records the folder's settings at path `f`, while walking it from a state that
already holds settings for `f` leaves those first settings untouched. -/
theorem folder_first_settings_win_witness :
    aGet ((getDataFromSchema sampleNorm
        [("f", .folder [("a", .plain (.num 1))] (.obj [("collapsed", .bool true)]))]
        "" [] ⟨[], []⟩).2.1).folders "f" = some (.obj [("collapsed", .bool true)]) ∧
    aGet ((getDataFromSchema sampleNorm
        [("f", .folder [("a", .plain (.num 1))] (.obj [("collapsed", .bool true)]))]
        "" [] ⟨[], [("f", .obj [])]⟩).2.1).folders "f" = some (.obj []) := by
  refine ⟨?_, ?_⟩
  · exact (folder_first_settings_win sampleNorm "f" [("a", .plain (.num 1))]
      (.obj [("collapsed", .bool true)]) [] "" [] ⟨[], []⟩ (by decide)).2.2 rfl
  · exact (folder_first_settings_win sampleNorm "f" [("a", .plain (.num 1))]
      (.obj [("collapsed", .bool true)]) [] "" [] ⟨[], [("f", .obj [])]⟩
      (by decide)).2.1 (.obj []) rfl

theorem aGet_cons {α : Type} (p : String × α) (rest : List (String × α))
    (k : String) :
    aGet (p :: rest) k = if p.1 == k then some p.2 else aGet rest k := by
  cases hp : p.1 == k <;> simp [aGet, List.find?_cons, hp]

theorem mem_aSet {α : Type} (o : List (String × α)) (k : String) (v : α) :
    ∀ pe ∈ aSet o k v, pe = (k, v) ∨ pe ∈ o := by
  induction o with
  | nil =>
    intro pe hpe
    simp only [aSet] at hpe
    exact Or.inl (List.mem_singleton.mp hpe)
  | cons p rest ih =>
    intro pe hpe
    by_cases hp : (p.1 == k) = true
    · simp only [aSet, hp, if_true] at hpe
      rcases List.mem_cons.mp hpe with h | h
      · exact Or.inl h
      · exact Or.inr (List.mem_cons_of_mem p h)
    · simp only [aSet, hp, if_false] at hpe
      rcases List.mem_cons.mp hpe with h | h
      · exact Or.inr (h ▸ List.mem_cons_self p rest)
      · rcases ih pe h with h1 | h1
        · exact Or.inl h1
        · exact Or.inr (List.mem_cons_of_mem p h1)

theorem mem_of_aGet {α : Type} (o : List (String × α)) (k : String) (v : α)
    (h : aGet o k = some v) : (k, v) ∈ o := by
  unfold aGet at h
  cases hf : List.find? (fun p => p.1 == k) o with
  | none => rw [hf] at h; exact absurd h (by simp)
  | some pe =>
    rw [hf] at h
    have hv : pe.2 = v := by simpa using h
    have hmem := List.mem_of_find?_eq_some hf
    have hpred := List.find?_some hf
    have hk : pe.1 = k := eq_of_beq hpred
    have : pe = (k, v) := by
      cases pe
      simp only [Prod.mk.injEq]
      exact ⟨hk, hv⟩
    rwa [← this]

theorem pickStep_get_other (data : ValueData) (acc : ValueData) (p q : String)
    (h : p ≠ q) : aGet (pickStep data acc p) q = aGet acc q := by
  unfold pickStep
  cases aGet data p with
  | none => rfl
  | some e => exact aGet_aSet_other _ _ _ _ (Ne.symm h)

theorem pickStep_get_self (data : ValueData) (acc : ValueData) (q : String) :
    aGet (pickStep data acc q) q = (aGet data q).orElse (fun _ => aGet acc q) := by
  unfold pickStep
  cases aGet data q with
  | none => simp
  | some e => simp [aGet_aSet_self]

theorem pick_fold_get (data : ValueData) (paths : List String) (acc : ValueData)
    (q : String) :
    aGet (paths.foldl (pickStep data) acc) q =
      (if q ∈ paths then aGet data q else none).orElse (fun _ => aGet acc q) := by
  induction paths generalizing acc with
  | nil => simp
  | cons p rest ih =>
    rw [List.foldl_cons, ih]
    by_cases hqr : q ∈ rest
    · simp only [hqr, if_true, List.mem_cons, or_true]
      cases hdv : aGet data q with
      | some v => simp
      | none =>
        show aGet (pickStep data acc p) q = aGet acc q
        by_cases hpq : p = q
        · rw [hpq, pickStep_get_self, hdv]
          rfl
        · exact pickStep_get_other data acc p q hpq
    · by_cases hpq : p = q
      · have hmem : q ∈ p :: rest := by rw [hpq]; exact List.mem_cons_self q rest
        simp only [hqr, if_false, hmem, if_true, Option.none_orElse]
        rw [hpq, pickStep_get_self]
        rfl
      · have hmem : q ∉ p :: rest := by
          intro hc
          rcases List.mem_cons.mp hc with h1 | h2
          · exact hpq h1.symm
          · exact hqr h2
        simp only [hqr, if_false, hmem, Option.none_orElse]
        rw [pickStep_get_other data acc p q hpq]

theorem aGet_pick (data : ValueData) (paths : List String) (q : String) :
    aGet (pick data paths) q = if q ∈ paths then aGet data q else none := by
  rw [pick, pick_fold_get]
  cases h : (if q ∈ paths then aGet data q else none) <;> rfl

theorem mem_pick (data : ValueData) (paths : List String) :
    ∀ pe ∈ pick data paths, aGet data pe.1 = some pe.2 := by
  suffices h : ∀ acc, (∀ pe ∈ acc, aGet data pe.1 = some pe.2) →
      ∀ pe ∈ paths.foldl (pickStep data) acc, aGet data pe.1 = some pe.2 by
    refine h [] ?_
    intro pe hpe
    exact absurd hpe (List.not_mem_nil pe)
  induction paths with
  | nil =>
    intro acc hacc pe hpe
    exact hacc pe hpe
  | cons p rest ih =>
    intro acc hacc pe hpe
    rw [List.foldl_cons] at hpe
    refine ih (pickStep data acc p) ?_ pe hpe
    intro pe1 hpe1
    unfold pickStep at hpe1
    cases hd : aGet data p with
    | none =>
      rw [hd] at hpe1
      exact hacc pe1 hpe1
    | some e =>
      rw [hd] at hpe1
      rcases mem_aSet acc p e pe1 hpe1 with h1 | h1
      · rw [h1]
        exact hd
      · exact hacc pe1 h1

theorem values_fold_get_none (l : ValueData) (acc : Obj) (k : String)
    (h : ∀ pe ∈ l, (pe.2.key == k) = false) :
    aGet (l.foldl (fun acc p =>
        aSet acc p.2.key (if p.2.disabled then .undef else p.2.value)) acc) k =
      aGet acc k := by
  induction l generalizing acc with
  | nil => rfl
  | cons pe rest ih =>
    rw [List.foldl_cons, ih _ (fun q hq => h q (List.mem_cons_of_mem pe hq))]
    apply aGet_aSet_other
    intro hkk
    have := h pe (List.mem_cons_self pe rest)
    rw [← hkk] at this
    simp at this

theorem values_fold_get_some (l : ValueData) (acc : Obj) (k : String) (v : JsVal)
    (hall : ∀ pe ∈ l, pe.2.key = k →
      (if pe.2.disabled then JsVal.undef else pe.2.value) = v)
    (hany : l.any (fun pe => pe.2.key == k) = true) :
    aGet (l.foldl (fun acc p =>
        aSet acc p.2.key (if p.2.disabled then .undef else p.2.value)) acc) k =
      some v := by
  induction l generalizing acc with
  | nil => exact absurd hany (by simp)
  | cons pe rest ih =>
    rw [List.foldl_cons]
    by_cases hr : rest.any (fun pe => pe.2.key == k) = true
    · exact ih _ (fun q hq hqk => hall q (List.mem_cons_of_mem pe hq) hqk) hr
    · have hhead : (pe.2.key == k) = true := by
        rcases List.any_eq_true.mp hany with ⟨q, hq, hqk⟩
        rcases List.mem_cons.mp hq with rfl | hq
        · exact hqk
        · exact absurd (List.any_eq_true.mpr ⟨q, hq, hqk⟩) hr
      have hk1 : pe.2.key = k := eq_of_beq hhead
      have hrestnone : ∀ q ∈ rest, (q.2.key == k) = false := by
        intro q hq
        cases hqk : q.2.key == k with
        | false => rfl
        | true => exact absurd (List.any_eq_true.mpr ⟨q, hq, hqk⟩) hr
      rw [values_fold_get_none rest _ k hrestnone, hk1, aGet_aSet_self]
      rw [hall pe (List.mem_cons_self pe rest) hk1]

theorem aGet_setDisabledAt_other (data : ValueData) (path : String) (flag : Bool)
    (q : String) (h : q ≠ path) :
    aGet (setDisabledAt data path flag) q = aGet data q := by
  induction data with
  | nil => rfl
  | cons p rest ih =>
    show aGet ((if p.1 == path then (p.1, { p.2 with disabled := flag }) else p) ::
      setDisabledAt rest path flag) q = aGet (p :: rest) q
    rw [aGet_cons, aGet_cons, ih]
    by_cases hp : (p.1 == path) = true
    · rw [if_pos hp]
      have hpq : (p.1 == q) = false := by
        cases hpq : p.1 == q with
        | false => rfl
        | true =>
          have h1 : q = path := by rw [← eq_of_beq hpq, eq_of_beq hp]
          exact absurd h1 h
      simp [hpq]
    · rw [if_neg hp]

theorem aGet_setDisabledAt_self (data : ValueData) (path : String) (flag : Bool) :
    aGet (setDisabledAt data path flag) path =
      (aGet data path).map (fun e => { e with disabled := flag }) := by
  induction data with
  | nil => rfl
  | cons p rest ih =>
    show aGet ((if p.1 == path then (p.1, { p.2 with disabled := flag }) else p) ::
      setDisabledAt rest path flag) path =
      (aGet (p :: rest) path).map (fun e => { e with disabled := flag })
    rw [aGet_cons, aGet_cons]
    by_cases hp : (p.1 == path) = true
    · rw [if_pos hp]
      simp [hp]
    · rw [if_neg hp]
      simp [hp, ih]

/-- C5: the flattened value snapshot maps a disabled entry's short key to
`undefined` while the stored value itself is unchanged in the data — the
entry under the flipped flag keeps the same value — so clearing the
disabled flag makes the original stored value readable again under the same
short key. -/
theorem disabled_reports_undefined (data : ValueData) (paths : List String)
    (p : String) (e : InputEntry) (hp : p ∈ paths) (he : aGet data p = some e)
    (hdis : e.disabled = true)
    (huniq : ∀ pe ∈ data, pe.2.key = e.key → pe.1 = p) :
    aGet (getValuesForPaths data paths) e.key = some JsVal.undef ∧
    aGet (setDisabledAt data p false) p = some { e with disabled := false } ∧
    aGet (getValuesForPaths (setDisabledAt data p false) paths) e.key =
      some e.value := by
  have hmemp : (p, e) ∈ pick data paths := by
    apply mem_of_aGet
    rw [aGet_pick, if_pos hp]
    exact he
  have hb : aGet (setDisabledAt data p false) p = some { e with disabled := false } := by
    rw [aGet_setDisabledAt_self, he]
    rfl
  refine ⟨?_, hb, ?_⟩
  · unfold getValuesForPaths
    apply values_fold_get_some
    · intro pe hpe hpek
      have hget := mem_pick data paths pe hpe
      have hmem : pe ∈ data := by
        have := mem_of_aGet data pe.1 pe.2 hget
        cases pe
        exact this
      have hpe1 : pe.1 = p := huniq pe hmem hpek
      rw [hpe1] at hget
      rw [he] at hget
      have hpe2 : pe.2 = e := by simpa using hget.symm
      rw [hpe2, hdis]
      simp
    · apply List.any_eq_true.mpr
      exact ⟨(p, e), hmemp, by simp⟩
  · unfold getValuesForPaths
    apply values_fold_get_some
    · intro pe hpe hpek
      have hget := mem_pick (setDisabledAt data p false) paths pe hpe
      by_cases hpe1 : pe.1 = p
      · rw [hpe1, hb] at hget
        have hpe2 : pe.2 = { e with disabled := false } := by simpa using hget.symm
        rw [hpe2]
        simp
      · rw [aGet_setDisabledAt_other data p false pe.1 hpe1] at hget
        have hmem : pe ∈ data := by
          have := mem_of_aGet data pe.1 pe.2 hget
          cases pe
          exact this
        exact absurd (huniq pe hmem hpek) hpe1
    · apply List.any_eq_true.mpr
      refine ⟨(p, { e with disabled := false }), ?_, by simp⟩
      apply mem_of_aGet
      rw [aGet_pick, if_pos hp]
      exact hb

/-- C5 witness: on the concrete data, the disabled entry reports `undefined`
under its short key, and after clearing the flag the original stored value is
readable again. -/
theorem disabled_reports_undefined_witness :
    aGet (getValuesForPaths disabledSampleData ["folderA.n", "folderA.m"]) "n" =
      some JsVal.undef ∧
    aGet (getValuesForPaths (setDisabledAt disabledSampleData "folderA.n" false)
      ["folderA.n", "folderA.m"]) "n" = some (.num 7) := by
  have h := disabled_reports_undefined disabledSampleData ["folderA.n", "folderA.m"]
    "folderA.n" { key := "n", value := .num 7, disabled := true }
    (by decide) rfl rfl (by decide)
  exact ⟨h.1, h.2.2⟩

namespace RefCount

theorem aGet_none_not_mem_keys {α : Type} (o : List (String × α)) (k : String)
    (h : aGet o k = none) : k ∉ o.map Prod.fst := by
  intro hmem
  rcases List.mem_map.mp hmem with ⟨pe, hpe, hk⟩
  unfold aGet at h
  rcases List.find?_eq_none.mp (by
    cases hf : List.find? (fun p => p.1 == k) o with
    | none => rfl
    | some q => rw [hf] at h; exact absurd h (by simp)) pe hpe with hq
  rw [hk] at hq
  simp at hq

theorem countAt_bump_self (c : List (String × Nat)) (p : String) :
    countAt (bump c p) p = countAt c p + 1 := by
  unfold bump countAt
  cases hg : aGet c p with
  | some n => rw [aGet_aSet_self]; rfl
  | none =>
    rw [aGet_append, hg]
    show ((aGet [(p, 1)] p).getD 0) = 0 + 1
    simp [aGet, List.find?]

theorem countAt_bump_other (c : List (String × Nat)) (p q : String) (h : q ≠ p) :
    countAt (bump c p) q = countAt c q := by
  unfold bump countAt
  cases hg : aGet c p with
  | some n => rw [aGet_aSet_other _ _ _ _ h]
  | none =>
    rw [aGet_append]
    have : aGet [(p, 1)] q = none := by
      apply aGet_eq_none_of_all
      intro pe hpe
      rcases List.mem_singleton.mp hpe with rfl
      cases hpq : ((p : String) == q) with
      | false => rfl
      | true => exact absurd (eq_of_beq hpq).symm h
    rw [this]
    cases aGet c q <;> rfl

theorem countAt_foldl_bump (ps : List String) (c : List (String × Nat)) (p : String) :
    countAt (ps.foldl bump c) p = countAt c p + ps.count p := by
  induction ps generalizing c with
  | nil => simp
  | cons q rest ih =>
    rw [List.foldl_cons, ih, List.count_cons]
    by_cases hqp : q = p
    · subst hqp
      rw [countAt_bump_self]
      simp
      omega
    · have hq : ((q : String) == p) = false := by
        cases hq : (q : String) == p with
        | false => rfl
        | true => exact absurd (eq_of_beq hq) hqp
      rw [countAt_bump_other c q p (fun h => hqp h.symm)]
      simp [hq]

theorem aGet_aRemove_other {α : Type} (o : List (String × α)) (k q : String)
    (h : q ≠ k) : aGet (aRemove o k) q = aGet o q := by
  induction o with
  | nil => rfl
  | cons p rest ih =>
    by_cases hp : (p.1 == k) = true
    · show aGet (if p.1 == k then rest else p :: aRemove rest k) q = _
      rw [if_pos hp, aGet_cons]
      have hpq : (p.1 == q) = false := by
        cases hpq : p.1 == q with
        | false => rfl
        | true =>
          have : q = k := by rw [← eq_of_beq hpq, eq_of_beq hp]
          exact absurd this h
      simp [hpq]
    · show aGet (if p.1 == k then rest else p :: aRemove rest k) q = _
      rw [if_neg hp, aGet_cons, aGet_cons, ih]

theorem aGet_aRemove_self {α : Type} (o : List (String × α)) (k : String)
    (hnd : (o.map Prod.fst).Nodup) : aGet (aRemove o k) k = none := by
  induction o with
  | nil => rfl
  | cons p rest ih =>
    rw [List.map_cons, List.nodup_cons] at hnd
    by_cases hp : (p.1 == k) = true
    · show aGet (if p.1 == k then rest else p :: aRemove rest k) k = none
      rw [if_pos hp]
      apply aGet_eq_none_of_all
      intro pe hpe
      cases hq : pe.1 == k with
      | false => rfl
      | true =>
        have : pe.1 = k := eq_of_beq hq
        have hmem : p.1 ∈ rest.map Prod.fst := by
          rw [eq_of_beq hp, ← this]
          exact List.mem_map.mpr ⟨pe, hpe, rfl⟩
        exact absurd hmem hnd.1
    · show aGet (if p.1 == k then rest else p :: aRemove rest k) k = none
      rw [if_neg hp, aGet_cons]
      simp only [hp, if_false]
      exact ih hnd.2

theorem mem_aRemove {α : Type} (o : List (String × α)) (k : String) :
    ∀ pe ∈ aRemove o k, pe ∈ o := by
  induction o with
  | nil => intro pe hpe; exact absurd hpe (List.not_mem_nil pe)
  | cons p rest ih =>
    intro pe hpe
    by_cases hp : (p.1 == k) = true
    · rw [show aRemove (p :: rest) k = if p.1 == k then rest else p :: aRemove rest k
        from rfl, if_pos hp] at hpe
      exact List.mem_cons_of_mem p hpe
    · rw [show aRemove (p :: rest) k = if p.1 == k then rest else p :: aRemove rest k
        from rfl, if_neg hp] at hpe
      rcases List.mem_cons.mp hpe with h | h
      · exact h ▸ List.mem_cons_self p rest
      · exact List.mem_cons_of_mem p (ih pe h)

theorem map_fst_aRemove_sublist {α : Type} (o : List (String × α)) (k : String) :
    ((aRemove o k).map Prod.fst).Sublist (o.map Prod.fst) := by
  induction o with
  | nil => exact List.Sublist.refl _
  | cons p rest ih =>
    by_cases hp : (p.1 == k) = true
    · rw [show aRemove (p :: rest) k = if p.1 == k then rest else p :: aRemove rest k
        from rfl, if_pos hp]
      exact List.sublist_cons_of_sublist _ (List.Sublist.refl _)
    · rw [show aRemove (p :: rest) k = if p.1 == k then rest else p :: aRemove rest k
        from rfl, if_neg hp, List.map_cons, List.map_cons]
      exact List.Sublist.cons₂ _ ih

theorem map_fst_aSet_of_aHas {α : Type} (o : List (String × α)) (k : String) (v : α)
    (h : aHas o k = true) : (aSet o k v).map Prod.fst = o.map Prod.fst := by
  induction o with
  | nil => exact absurd h (by simp [aHas])
  | cons p rest ih =>
    by_cases hp : (p.1 == k) = true
    · rw [show aSet (p :: rest) k v = if p.1 == k then (k, v) :: rest
        else p :: aSet rest k v from rfl, if_pos hp, List.map_cons, List.map_cons]
      rw [eq_of_beq hp]
    · rw [show aSet (p :: rest) k v = if p.1 == k then (k, v) :: rest
        else p :: aSet rest k v from rfl, if_neg hp, List.map_cons, List.map_cons]
      have hr : aHas rest k = true := by
        unfold aHas at h
        simp only [List.any_cons, hp, Bool.false_or] at h
        exact h
      rw [ih hr]

theorem WFCounts_bump (c : List (String × Nat)) (p : String) (h : WFCounts c) :
    WFCounts (bump c p) := by
  unfold bump
  cases hg : aGet c p with
  | some n =>
    constructor
    · rw [map_fst_aSet_of_aHas c p (n + 1) ((aHas_iff_aGet c p).mpr ⟨n, hg⟩)]
      exact h.1
    · intro pe hpe
      rcases mem_aSet c p (n + 1) pe hpe with h1 | h1
      · rw [h1]; omega
      · exact h.2 pe h1
  | none =>
    constructor
    · rw [List.map_append]
      apply List.Nodup.append h.1 (by simp)
      intro a ha hb
      have hap : a = p := List.mem_singleton.mp (by simpa using hb)
      rw [hap] at ha
      exact aGet_none_not_mem_keys c p hg ha
    · intro pe hpe
      rcases List.mem_append.mp hpe with h1 | h1
      · exact h.2 pe h1
      · rcases List.mem_singleton.mp h1 with rfl
        omega

theorem WFCounts_drop (c : List (String × Nat)) (p : String) (h : WFCounts c) :
    WFCounts (drop c p) := by
  unfold drop
  cases hg : aGet c p with
  | none => exact h
  | some n =>
    show WFCounts (if n ≤ 1 then aRemove c p else aSet c p (n - 1))
    by_cases hn : n ≤ 1
    · rw [if_pos hn]
      constructor
      · exact List.Nodup.sublist (map_fst_aRemove_sublist c p) h.1
      · intro pe hpe
        exact h.2 pe (mem_aRemove c p pe hpe)
    · rw [if_neg hn]
      constructor
      · rw [map_fst_aSet_of_aHas c p (n - 1) ((aHas_iff_aGet c p).mpr ⟨n, hg⟩)]
        exact h.1
      · intro pe hpe
        rcases mem_aSet c p (n - 1) pe hpe with h1 | h1
        · rw [h1]; omega
        · exact h.2 pe h1

theorem countAt_drop_self (c : List (String × Nat)) (p : String) (h : WFCounts c) :
    countAt (drop c p) p = countAt c p - 1 := by
  unfold drop countAt
  cases hg : aGet c p with
  | none => simp [hg]
  | some n =>
    show (aGet (if n ≤ 1 then aRemove c p else aSet c p (n - 1)) p).getD 0 =
      (some n).getD 0 - 1
    by_cases hn : n ≤ 1
    · rw [if_pos hn, aGet_aRemove_self c p h.1]
      have : 1 ≤ n := h.2 (p, n) (mem_of_aGet c p n hg)
      simp
      omega
    · rw [if_neg hn, aGet_aSet_self]
      rfl

theorem countAt_drop_other (c : List (String × Nat)) (p q : String) (h : q ≠ p) :
    countAt (drop c p) q = countAt c q := by
  unfold drop countAt
  cases hg : aGet c p with
  | none => rfl
  | some n =>
    show (aGet (if n ≤ 1 then aRemove c p else aSet c p (n - 1)) q).getD 0 =
      (aGet c q).getD 0
    by_cases hn : n ≤ 1
    · rw [if_pos hn, aGet_aRemove_other c p q h]
    · rw [if_neg hn, aGet_aSet_other c p q (n - 1) h]

theorem countAt_foldl_drop (ps : List String) (c : List (String × Nat)) (p : String)
    (h : WFCounts c) : countAt (ps.foldl drop c) p = countAt c p - ps.count p := by
  induction ps generalizing c with
  | nil => simp
  | cons q rest ih =>
    rw [List.foldl_cons, ih (drop c q) (WFCounts_drop c q h), List.count_cons]
    by_cases hqp : q = p
    · subst hqp
      rw [countAt_drop_self c q h]
      simp
      omega
    · have hq : ((q : String) == p) = false := by
        cases hq : (q : String) == p with
        | false => rfl
        | true => exact absurd (eq_of_beq hq) hqp
      rw [countAt_drop_other c q p (fun h1 => hqp h1.symm)]
      simp [hq]

theorem WFCounts_foldl_bump (ps : List String) (c : List (String × Nat))
    (h : WFCounts c) : WFCounts (ps.foldl bump c) := by
  induction ps generalizing c with
  | nil => exact h
  | cons q rest ih => exact ih (bump c q) (WFCounts_bump c q h)

theorem WFCounts_foldl_drop (ps : List String) (c : List (String × Nat))
    (h : WFCounts c) : WFCounts (ps.foldl drop c) := by
  induction ps generalizing c with
  | nil => exact h
  | cons q rest ih => exact ih (drop c q) (WFCounts_drop c q h)

theorem aHas_countAt_pos (c : List (String × Nat)) (p : String) (h : WFCounts c) :
    aHas c p = true ↔ 0 < countAt c p := by
  constructor
  · intro hh
    obtain ⟨v, hv⟩ := (aHas_iff_aGet c p).mp hh
    have : 1 ≤ v := h.2 (p, v) (mem_of_aGet c p v hv)
    unfold countAt
    rw [hv]
    simpa using this
  · intro hpos
    unfold countAt at hpos
    cases hg : aGet c p with
    | none => rw [hg] at hpos; simp at hpos
    | some v => exact (aHas_iff_aGet c p).mpr ⟨v, hg⟩

theorem mem_allPaths (ops : List Op) (p : String) :
    p ∈ allPaths ops ↔ ∃ op ∈ ops, p ∈ opPaths op := by
  induction ops with
  | nil => simp [allPaths]
  | cons op rest ih =>
    show p ∈ opPaths op ++ allPaths rest ↔ _
    rw [List.mem_append, ih]
    constructor
    · rintro (h | ⟨op1, hop1, hp1⟩)
      · exact ⟨op, List.mem_cons_self op rest, h⟩
      · exact ⟨op1, List.mem_cons_of_mem op hop1, hp1⟩
    · rintro ⟨op1, hop1, hp1⟩
      rcases List.mem_cons.mp hop1 with rfl | hop1
      · exact Or.inl hp1
      · exact Or.inr ⟨op1, hop1, hp1⟩

theorem touching_eq_zero (ops : List Op) (p : String) (h : p ∉ allPaths ops) :
    regsTouching ops p = 0 ∧ unregsTouching ops p = 0 := by
  induction ops with
  | nil => exact ⟨rfl, rfl⟩
  | cons op rest ih =>
    have hop : p ∉ opPaths op ∧ p ∉ allPaths rest := by
      constructor <;> intro hc <;>
        exact h (by
          show p ∈ opPaths op ++ allPaths rest
          rw [List.mem_append]
          first
          | exact Or.inl hc
          | exact Or.inr hc)
    obtain ⟨ih1, ih2⟩ := ih hop.2
    unfold regsTouching unregsTouching at *
    rw [List.map_cons, List.sum_cons, List.map_cons, List.sum_cons, ih1, ih2]
    cases op with
    | reg ps fs =>
      have : ps.count p = 0 := List.count_eq_zero.mpr (fun hc => hop.1 hc)
      simp [this]
    | unreg ps =>
      have : ps.count p = 0 := List.count_eq_zero.mpr (fun hc => hop.1 hc)
      simp [this]

theorem allPaths_take (ops : List Op) (n : Nat) (p : String)
    (h : p ∈ allPaths (ops.take n)) : p ∈ allPaths ops := by
  rcases (mem_allPaths (ops.take n) p).mp h with ⟨op, hop, hp⟩
  exact (mem_allPaths ops p).mpr ⟨op, List.take_subset n ops hop, hp⟩

theorem wfOps_le (ops : List Op) (h : wfOps ops = true) (n : Nat) (p : String) :
    unregsTouching (ops.take n) p ≤ regsTouching (ops.take n) p := by
  have hall := List.all_eq_true.mp h
  by_cases hmem : p ∈ allPaths ops
  · by_cases hn : n ≤ ops.length
    · have h1 := List.all_eq_true.mp (hall n (List.mem_range.mpr (by omega))) p hmem
      exact of_decide_eq_true h1
    · rw [List.take_of_length_le (by omega)]
      have h1 := List.all_eq_true.mp
        (hall ops.length (List.mem_range.mpr (by omega))) p hmem
      rw [List.take_length] at h1
      exact of_decide_eq_true h1
  · have hmem1 : p ∉ allPaths (ops.take n) := fun hc => hmem (allPaths_take ops n p hc)
    obtain ⟨h1, h2⟩ := touching_eq_zero (ops.take n) p hmem1
    omega

theorem wf_init_of_append (ops : List Op) (op : Op)
    (h : ∀ n p, unregsTouching ((ops ++ [op]).take n) p ≤
      regsTouching ((ops ++ [op]).take n) p) :
    ∀ n p, unregsTouching (ops.take n) p ≤ regsTouching (ops.take n) p := by
  intro n p
  by_cases hn : n ≤ ops.length
  · have h1 := h n p
    rw [List.take_append_of_le_length hn] at h1
    exact h1
  · have h1 := h ops.length p
    rw [List.take_append_of_le_length (le_refl ops.length), List.take_length] at h1
    rw [List.take_of_length_le (by omega)]
    exact h1

theorem regsTouching_append (ops1 ops2 : List Op) (p : String) :
    regsTouching (ops1 ++ ops2) p = regsTouching ops1 p + regsTouching ops2 p := by
  unfold regsTouching
  rw [List.map_append, List.sum_append]

theorem unregsTouching_append (ops1 ops2 : List Op) (p : String) :
    unregsTouching (ops1 ++ ops2) p = unregsTouching ops1 p + unregsTouching ops2 p := by
  unfold unregsTouching
  rw [List.map_append, List.sum_append]

theorem run_append_singleton (ops : List Op) (op : Op) :
    run (ops ++ [op]) = applyOp (run ops) op := by
  unfold run
  rw [List.foldl_append]
  rfl

theorem run_wf_count (ops : List Op)
    (hwf : ∀ n p, unregsTouching (ops.take n) p ≤ regsTouching (ops.take n) p) :
    WFCounts (run ops).counts ∧
    ∀ p, countAt (run ops).counts p = regsTouching ops p - unregsTouching ops p := by
  induction ops using List.reverseRecOn with
  | nil =>
    constructor
    · exact ⟨List.nodup_nil, by intro pe hpe; exact absurd hpe (List.not_mem_nil pe)⟩
    · intro p
      rfl
  | append_singleton ops op ih =>
    obtain ⟨ihwf, ihcount⟩ := ih (wf_init_of_append ops op hwf)
    have hle : ∀ p, unregsTouching ops p ≤ regsTouching ops p := by
      intro p
      have h0 := wf_init_of_append ops op hwf ops.length p
      rwa [List.take_length] at h0
    rw [run_append_singleton]
    cases op with
    | reg ps fs =>
      constructor
      · exact WFCounts_foldl_bump ps (run ops).counts ihwf
      · intro p
        show countAt (ps.foldl bump (run ops).counts) p = _
        rw [countAt_foldl_bump, ihcount p, regsTouching_append, unregsTouching_append]
        have hr1 : regsTouching [Op.reg ps fs] p = ps.count p := by
          simp [regsTouching]
        have hu1 : unregsTouching [Op.reg ps fs] p = 0 := by
          simp [unregsTouching]
        rw [hr1, hu1]
        have := hle p
        omega
    | unreg ps =>
      constructor
      · exact WFCounts_foldl_drop ps (run ops).counts ihwf
      · intro p
        show countAt (ps.foldl drop (run ops).counts) p = _
        rw [countAt_foldl_drop ps (run ops).counts p ihwf, ihcount p,
          regsTouching_append, unregsTouching_append]
        have hr1 : regsTouching [Op.unreg ps] p = 0 := by
          simp [regsTouching]
        have hu1 : unregsTouching [Op.unreg ps] p = ps.count p := by
          simp [unregsTouching]
        rw [hr1, hu1]
        omega

/-- C2 (spec-modelled, the store implementation is not under src): against a
store, every registration touching a path increments that path's reference
count by the number of times it touches it (by one for a path set), every
teardown of a previously acquired registration decrements it likewise with
entries removed exactly when the count reaches zero, and after a teardown
every folder entry left without child paths is pruned; hence for every
well-formed sequence of registrations and teardowns a path exists in the
final store if and only if the registrations touching it outnumber the
teardowns touching it. -/
theorem refCount_existence (ops : List Op) (p : String) (hwf : wfOps ops = true) :
    countAt (run ops).counts p = regsTouching ops p - unregsTouching ops p ∧
    (aHas (run ops).counts p = true ↔ unregsTouching ops p < regsTouching ops p) ∧
    (∀ s ps fs, countAt (applyOp s (.reg ps fs)).counts p =
      countAt s.counts p + ps.count p) ∧
    (∀ ops0 ps, ops = ops0 ++ [Op.unreg ps] →
      countAt (run ops).counts p = countAt (run ops0).counts p - ps.count p ∧
      ∀ f ∈ (run ops).folders, hasChild (run ops).counts f = true) := by
  obtain ⟨hWF, hcount⟩ := run_wf_count ops (wfOps_le ops hwf)
  have hle : unregsTouching ops p ≤ regsTouching ops p := by
    have h0 := wfOps_le ops hwf ops.length p
    rwa [List.take_length] at h0
  refine ⟨hcount p, ?_, ?_, ?_⟩
  · rw [aHas_countAt_pos (run ops).counts p hWF, hcount p]
    omega
  · intro s ps fs
    exact countAt_foldl_bump ps s.counts p
  · intro ops0 ps heq
    have hwf0 : ∀ n q, unregsTouching (ops0.take n) q ≤ regsTouching (ops0.take n) q := by
      intro n q
      have := wfOps_le ops hwf
      rw [heq] at this
      exact wf_init_of_append ops0 (Op.unreg ps) this n q
    obtain ⟨hWF0, _⟩ := run_wf_count ops0 hwf0
    constructor
    · rw [heq, run_append_singleton]
      exact countAt_foldl_drop ps (run ops0).counts p hWF0
    · intro f hf
      rw [heq, run_append_singleton] at hf ⊢
      exact (List.mem_filter.mp hf).2

/-- C2 witness: over the concrete sequence of two overlapping registrations
and one teardown, the shared path keeps count one, the path touched only by
the torn-down registration is removed, and the folder survives because a
child path remains. -/
theorem refCount_existence_witness :
    countAt (run sampleOps).counts "f.a" = 1 ∧
    aHas (run sampleOps).counts "f.b" = false ∧
    hasChild (run sampleOps).counts "f" = true ∧
    "f" ∈ (run sampleOps).folders := by
  have ha := refCount_existence sampleOps "f.a" (by decide)
  have hb := refCount_existence sampleOps "f.b" (by decide)
  refine ⟨?_, ?_, ?_, by decide⟩
  · rw [ha.1]
    decide
  · cases hB : aHas (run sampleOps).counts "f.b" with
    | false => rfl
    | true => exact absurd (hb.2.1.mp hB) (by decide)
  · have h := (ha.2.2.2 [.reg ["f.a", "f.b"] ["f"], .reg ["f.a"] []]
      ["f.a", "f.b"] rfl).2
    exact h "f" (by decide)

end RefCount

end Leva
